import Mathlib

/-!
Verification of the hash-tree differencing engine of NodeConfigLoder
(src/configloder/FindDifferences.ts, with src/configloder/FindDifferences.js as
the legacy JS variant).  The engine builds a hash tree over a JSON-like value
and incrementally detects added / removed / modified paths between successive
snapshots.

Modelling conventions:
* JSON values are the inductive type JValue (null, booleans, integers, strings,
  arrays, objects).  Object fields are kept in insertion order; JavaScript
  property-enumeration order (canonical integer-like keys first, in ascending
  numeric order, then the remaining keys in insertion order) is applied at
  every enumeration site through jsOrderPairs, as V8 does.
* JSON.stringify is modelled by serialize.  Strings in scope contain no control
  characters beyond the usual escapes handled by escapeChars.
* crypto.createHash("sha256") is idealised by the injective, length-prefixed
  encoding calculateHash; equality of digests then coincides with equality of
  the hashed strings, which is the standard no-collision idealisation.
* The engine mutates a tree in place; we model this by explicit state passing.
  A thrown TypeError (the "in" operator applied to a non-object) is the
  typeError outcome, carrying the tree state at the throw.
* Property lookups go to own properties only; prototype-inherited keys such as
  "toString" are outside the modelled fragment.
-/

/-- Decimal digit to character, as used by Number.prototype.toString. -/
def digitChar : Nat → Char
  | 0 => '0' | 1 => '1' | 2 => '2' | 3 => '3' | 4 => '4'
  | 5 => '5' | 6 => '6' | 7 => '7' | 8 => '8' | _ => '9'

/-- Fuel-driven digit expansion of a natural number (most significant first). -/
def natDigits : Nat → Nat → List Char
  | 0, _ => []
  | fuel + 1, n => if n < 10 then [digitChar n] else natDigits fuel (n / 10) ++ [digitChar (n % 10)]

/-- Decimal rendering of a natural number, as JavaScript i.toString() yields. -/
def natToString (n : Nat) : String := String.mk (natDigits (n + 1) n)

/-- Value of a decimal digit character. -/
def charDigitVal (c : Char) : Nat := c.toNat - 48

/-- Whether a character is a decimal digit. -/
def isDigitChar (c : Char) : Bool := 48 ≤ c.toNat && c.toNat ≤ 57

/-- Parse a list of decimal digit characters (most significant first). -/
def parseDigits (acc : Nat) : List Char → Nat
  | [] => acc
  | c :: cs => parseDigits (acc * 10 + charDigitVal c) cs

/-- Numeric value of a string of decimal digits. -/
def parseNat (s : String) : Nat := parseDigits 0 s.data

/-- Whether a string is a canonical integer-like property key ("0", "1", "42", ...):
nonempty, all decimal digits, no leading zero.  JavaScript enumerates such own
keys first, in ascending numeric order. -/
def isIndexKey (s : String) : Bool :=
  match s.data with
  | [] => false
  | c :: cs => isDigitChar c && cs.all isDigitChar && (c ≠ '0' || cs = [])

/-- Lexicographic comparison of character lists by code point, matching the
default sort order of Array.prototype.sort on the strings in scope. -/
def charListLe : List Char → List Char → Bool
  | [], _ => true
  | _ :: _, [] => false
  | a :: arest, b :: brest =>
    if a.toNat < b.toNat then true
    else if b.toNat < a.toNat then false
    else charListLe arest brest

/-- String comparison used for Object.keys(data).sort(). -/
def strLe (a b : String) : Bool := charListLe a.data b.data

/-- Join a list of strings with a separator, as Array.prototype.join. -/
def joinSep (sep : String) : List String → String
  | [] => ""
  | [x] => x
  | x :: xs => x ++ sep ++ joinSep sep xs

/-- JavaScript property-enumeration order applied to an insertion-ordered
association list: canonical integer-like keys first in ascending numeric
order, then all remaining keys in insertion order. -/
def jsOrderPairs {α : Type} (l : List (String × α)) : List (String × α) :=
  (List.insertionSort (fun a b => parseNat a.1 ≤ parseNat b.1)
    (l.filter (fun a => isIndexKey a.1)))
  ++ l.filter (fun a => !(isIndexKey a.1))

/-- SHA-256 (calculateHash, FindDifferences.ts line 60) idealised as an
injective length-prefixed encoding: digests are equal exactly when the hashed
strings are equal, the usual collision-free idealisation of the hash. -/
def calculateHash (value : String) : String :=
  "sha256:" ++ natToString value.length ++ ":" ++ value

/-- JSON-like values fed to the engine.  Fields are in insertion order. -/
inductive JValue where
  | jnull
  | jbool (b : Bool)
  | jnum (n : Int)
  | jstr (s : String)
  | jarr (elems : List JValue)
  | jobj (fields : List (String × JValue))

/-- JSON string escaping for the characters appearing in this development. -/
def escapeChars : List Char → List Char
  | [] => []
  | c :: cs =>
    (if c = '"' then ['\\', '"']
     else if c = '\\' then ['\\', '\\']
     else if c = '\n' then ['\\', 'n']
     else if c = '\t' then ['\\', 't']
     else if c = '\r' then ['\\', 'r']
     else [c]) ++ escapeChars cs

/-- Quoted JSON string literal. -/
def quoteJSON (s : String) : String := "\"" ++ String.mk (escapeChars s.data) ++ "\""

/-- Decimal rendering of an integer, as JSON.stringify renders the integral
numbers in scope. -/
def intToString : Int → String
  | Int.ofNat m => natToString m
  | Int.negSucc m => "-" ++ natToString (m + 1)

mutual

/-- JSON.stringify on the modelled fragment.  Object properties are emitted in
JavaScript enumeration order (jsOrderPairs). -/
def serialize : JValue → String
  | .jnull => "null"
  | .jbool true => "true"
  | .jbool false => "false"
  | .jnum n => intToString n
  | .jstr s => quoteJSON s
  | .jarr elems => "[" ++ joinSep "," (serializeList elems) ++ "]"
  | .jobj fields =>
    "\x7b" ++
      joinSep "," ((jsOrderPairs (serializeFields fields)).map
        (fun kv => quoteJSON kv.1 ++ ":" ++ kv.2)) ++
    "\x7d"

/-- Serializations of the elements of an array, in order. -/
def serializeList : List JValue → List String
  | [] => []
  | v :: vs => serialize v :: serializeList vs

/-- Serializations of the fields of an object, keyed, in insertion order. -/
def serializeFields : List (String × JValue) → List (String × String)
  | [] => []
  | (k, v) :: rest => (k, serialize v) :: serializeFields rest

end

/-- JavaScript truthiness of a modelled value (NaN does not occur here). -/
def truthy : JValue → Bool
  | .jnull => false
  | .jbool b => b
  | .jnum n => !(n == 0)
  | .jstr s => !(s == "")
  | .jarr _ => true
  | .jobj _ => true

/-- The test "typeof x === 'object' && x !== null" used throughout the engine. -/
def isObjLike : JValue → Bool
  | .jarr _ => true
  | .jobj _ => true
  | _ => false

/-- Reading the discriminator property: data.type of an object literal
(objects in scope have no duplicate keys, so the first binding decides). -/
def hasTruthyTypeField (fields : List (String × JValue)) : Bool :=
  match fields.lookup "type" with
  | some v => truthy v
  | none => false

/-- Truthiness of value.type, the opaque-leaf discriminator check; undefined
(hence falsy) on arrays and primitives. -/
def valueTruthyType : JValue → Bool
  | .jobj fields => hasTruthyTypeField fields
  | _ => false

/-- Own-property keys of a value in for-in enumeration order: ascending indices
for an array, jsOrderPairs order for an object, nothing for primitives. -/
def enumValueKeys : JValue → List String
  | .jobj fields => (jsOrderPairs fields).map (fun kv => kv.1)
  | .jarr elems => (List.range elems.length).map natToString
  | _ => []

/-- String-keyed properties of Object.prototype, which the JavaScript "in"
operator finds on every plain object (and, through the prototype chain, on
arrays) in addition to the own properties. -/
def objProtoNames : List String :=
  ["constructor", "hasOwnProperty", "isPrototypeOf", "propertyIsEnumerable",
   "toLocaleString", "toString", "valueOf",
   "__defineGetter__", "__defineSetter__", "__lookupGetter__", "__lookupSetter__",
   "__proto__"]

/-- Non-index string keys the "in" operator finds on an array value: the own
"length" property, the string-keyed methods of Array.prototype, and the
Object.prototype names further up the chain. -/
def arrProtoNames : List String :=
  ["length", "at", "concat", "copyWithin", "entries", "every", "fill", "filter",
   "find", "findIndex", "findLast", "findLastIndex", "flat", "flatMap", "forEach",
   "includes", "indexOf", "join", "keys", "lastIndexOf", "map", "pop", "push",
   "reduce", "reduceRight", "reverse", "shift", "slice", "some", "sort", "splice",
   "toReversed", "toSorted", "toSpliced", "unshift", "values", "with"] ++
  objProtoNames

/-- The test "key in value" for object-like values (the engine throws before
evaluating it on anything else): own properties — fields of an object, index
keys in bounds for an array — or names inherited from the prototype chain. -/
def keyInValue : JValue → String → Bool
  | .jobj fields, k => fields.any (fun kv => kv.1 == k) || objProtoNames.any (fun p => p == k)
  | .jarr elems, k =>
    (isIndexKey k && parseNat k < elems.length) || arrProtoNames.any (fun p => p == k)
  | _, _ => false

/-- Property access value[key] on own properties. -/
def jGet : JValue → String → Option JValue
  | .jobj fields, k => fields.lookup k
  | .jarr elems, k => if isIndexKey k then elems.get? (parseNat k) else none
  | _, _ => none

example : serialize (.jobj [("a", .jnum 1), ("b", .jstr "x")]) = "\x7b\"a\":1,\"b\":\"x\"\x7d" := rfl
example : serialize (.jarr [.jnum 1, .jnull]) = "[1,null]" := rfl
example : serialize (.jobj [("10", .jnum 1), ("9", .jnum 2)]) = "\x7b\"9\":2,\"10\":1\x7d" := rfl
example : natToString 105 = "105" := rfl
example : calculateHash "1" = "sha256:1:1" := rfl
example : isIndexKey "10" = true ∧ isIndexKey "09" = false ∧ isIndexKey "" = false := by decide

/-- A node of the hash tree (HashTreeNode, FindDifferences.ts lines 7-10).  In
JavaScript the digest lives in the same object as the children, under the
reserved key "__hash"; this structured view keeps the digest out of the child
list and is faithful exactly when no input key equals "__hash" (established
against the raw object model rawBuildHashTree below, and refuted beyond that
boundary in the C5 analysis).  Children are in insertion order; enumeration
sites apply jsOrderPairs. -/
inductive HashTree where
  | node (hash : String) (children : List (String × HashTree))

/-- Digest of a node, the __hash property. -/
def hashOf : HashTree → String
  | .node h _ => h

/-- Children of a node, in insertion order. -/
def childrenOf : HashTree → List (String × HashTree)
  | .node _ cs => cs

/-- Insertion sort of keyed values in lexicographic key order, modelling
Object.keys(data).sort() followed by looking each key up. -/
def sortByKeyLex {α : Type} (l : List (String × α)) : List (String × α) :=
  List.insertionSort (fun a b => strLe a.1 b.1) l

/-- Pairs ["0" ↦ x0, "1" ↦ x1, ...] from Object.fromEntries(childHashes.map((h, i) => [i.toString(), h])). -/
def indexPairs {α : Type} (i : Nat) : List α → List (String × α)
  | [] => []
  | x :: xs => (natToString i, x) :: indexPairs (i + 1) xs

mutual

/-- buildHashTree (FindDifferences.ts lines 77-116).  Primitives and null:
leaf with digest of the serialized value.  Arrays: children under index keys,
digest of the keyless concatenation of child digests.  Objects with a truthy
type property: opaque leaf with digest of the serialized object.  Plain
objects: children built per key in lexicographically sorted order (objects in
scope have no duplicate keys, so sorting the built fields coincides with
looking each sorted key up), digest of the "key:digest" concatenation in
enumeration order of the sorted record (jsOrderPairs, from Object.entries). -/
def buildHashTree : JValue → HashTree
  | .jnull => .node (calculateHash (serialize .jnull)) []
  | .jbool b => .node (calculateHash (serialize (.jbool b))) []
  | .jnum n => .node (calculateHash (serialize (.jnum n))) []
  | .jstr s => .node (calculateHash (serialize (.jstr s))) []
  | .jarr elems =>
    let childHashes := buildHashTreeList elems
    .node (calculateHash (joinSep "" (childHashes.map hashOf))) (indexPairs 0 childHashes)
  | .jobj fields =>
    if hasTruthyTypeField fields then
      .node (calculateHash (serialize (.jobj fields))) []
    else
      let childHashes := sortByKeyLex (buildHashTreeFields fields)
      .node
        (calculateHash (joinSep ""
          ((jsOrderPairs childHashes).map (fun kv => kv.1 ++ ":" ++ hashOf kv.2))))
        childHashes

/-- Children of an array node, in element order. -/
def buildHashTreeList : List JValue → List HashTree
  | [] => []
  | v :: vs => buildHashTree v :: buildHashTreeList vs

/-- Children of an object node, keyed, in insertion order (sorted afterwards). -/
def buildHashTreeFields : List (String × JValue) → List (String × HashTree)
  | [] => []
  | (k, v) :: rest => (k, buildHashTree v) :: buildHashTreeFields rest

end

mutual

/-- Number of calculateHash invocations performed by buildHashTree: one per
constructed node (leaves included), mirroring the calls at lines 81, 88, 98
and 110 of FindDifferences.ts. -/
def buildCalls : JValue → Nat
  | .jnull => 1
  | .jbool _ => 1
  | .jnum _ => 1
  | .jstr _ => 1
  | .jarr elems => buildCallsList elems + 1
  | .jobj fields =>
    if hasTruthyTypeField fields then 1 else buildCallsFields fields + 1

/-- Hash-call count over array elements. -/
def buildCallsList : List JValue → Nat
  | [] => 0
  | v :: vs => buildCalls v + buildCallsList vs

/-- Hash-call count over object fields. -/
def buildCallsFields : List (String × JValue) → Nat
  | [] => 0
  | (_, v) :: rest => buildCalls v + buildCallsFields rest

end

example :
    buildHashTree (.jobj [("b", .jnum 1), ("a", .jnum 2)]) =
      .node (calculateHash ("a:" ++ calculateHash "2" ++ "b:" ++ calculateHash "1"))
        [("a", .node (calculateHash "2") []), ("b", .node (calculateHash "1") [])] := rfl

example :
    buildHashTree (.jarr [.jnum 1, .jnum 2]) =
      .node (calculateHash (calculateHash "1" ++ calculateHash "2"))
        [("0", .node (calculateHash "1") []), ("1", .node (calculateHash "2") [])] := rfl

example :
    buildHashTree (.jobj [("type", .jstr "X"), ("payload", .jstr "p1")]) =
      .node (calculateHash "\x7b\"type\":\"X\",\"payload\":\"p1\"\x7d") [] := rfl

/-- Raw JavaScript object values: a property holds either a string (the digest)
or a nested object.  This is the untyped carrier in which the source actually
stores hash-tree nodes, digest in-band under the key "__hash". -/
inductive JSVal where
  | str (s : String)
  | obj (props : List (String × JSVal))

/-- Property assignment target[k] = v: overwrite in place if the key exists
(the property keeps its slot), append otherwise. -/
def assignProp : List (String × JSVal) → String → JSVal → List (String × JSVal)
  | [], k, v => [(k, v)]
  | (k0, v0) :: rest, k, v =>
    if k0 == k then (k0, v) :: rest else (k0, v0) :: assignProp rest k v

/-- Object literal with spread, \x7b ...base, ...extra \x7d: successive
property assignment, later entries overwriting earlier ones in place. -/
def objLit (base extra : List (String × JSVal)) : List (String × JSVal) :=
  extra.foldl (fun acc kv => assignProp acc kv.1 kv.2) base

/-- Reading node.__hash where it is interpolated into a template literal:
a string stays itself, an object renders as "[object Object]", a missing
property as "undefined". -/
def rawHashTemplate : Option JSVal → String
  | some (.str s) => s
  | some (.obj _) => "[object Object]"
  | none => "undefined"

/-- Reading node.__hash inside Array.prototype.join: a string stays itself,
an object renders as "[object Object]", undefined renders as "". -/
def rawHashJoin : Option JSVal → String
  | some (.str s) => s
  | some (.obj _) => "[object Object]"
  | none => ""

/-- Property lookup of "__hash" on a raw value (undefined on a string). -/
def rawLookup : JSVal → Option JSVal
  | .str _ => none
  | .obj props => props.lookup "__hash"

/-- Same lookup, named separately for the keyed-entries call site. -/
def rawLookupIn (v : JSVal) : Option JSVal := rawLookup v

mutual

/-- buildHashTree transcribed over raw JavaScript objects, keeping the digest
in-band under "__hash" exactly as the source does (FindDifferences.ts lines
77-116).  The spread in the returned object literal lets a child named
"__hash" overwrite the digest slot. -/
def rawBuildHashTree : JValue → JSVal
  | .jnull => .obj [("__hash", .str (calculateHash (serialize .jnull)))]
  | .jbool b => .obj [("__hash", .str (calculateHash (serialize (.jbool b))))]
  | .jnum n => .obj [("__hash", .str (calculateHash (serialize (.jnum n))))]
  | .jstr s => .obj [("__hash", .str (calculateHash (serialize (.jstr s))))]
  | .jarr elems =>
    let childHashes := rawBuildList elems
    let combined := calculateHash (joinSep ""
      (childHashes.map (fun h => rawHashJoin (rawLookup h))))
    .obj (objLit [("__hash", .str combined)] (indexPairs 0 childHashes))
  | .jobj fields =>
    if hasTruthyTypeField fields then
      .obj [("__hash", .str (calculateHash (serialize (.jobj fields))))]
    else
      let childHashes := sortByKeyLex (rawBuildFields fields)
      let combined := calculateHash (joinSep ""
        ((jsOrderPairs childHashes).map
          (fun kv => kv.1 ++ ":" ++ rawHashTemplate (rawLookupIn kv.2))))
      .obj (objLit [("__hash", .str combined)] childHashes)

/-- Raw children of an array node. -/
def rawBuildList : List JValue → List JSVal
  | [] => []
  | v :: vs => rawBuildHashTree v :: rawBuildList vs

/-- Raw children of an object node, keyed, in insertion order. -/
def rawBuildFields : List (String × JValue) → List (String × JSVal)
  | [] => []
  | (k, v) :: rest => (k, rawBuildHashTree v) :: rawBuildFields rest

end

mutual

/-- Digest stored out-of-band from the children, as the specification asserts:
the node is an object whose first property is "__hash" bound to a string, and
every other property is a well-formed child node under a key other than
"__hash". -/
def rawOk : JSVal → Bool
  | .str _ => false
  | .obj (("__hash", .str _) :: rest) => rawOkChildren rest
  | .obj _ => false

/-- Child properties of a well-formed raw node. -/
def rawOkChildren : List (String × JSVal) → Bool
  | [] => true
  | (k, .obj props) :: rest => !(k == "__hash") && rawOk (.obj props) && rawOkChildren rest
  | (_, .str _) :: _ => false

end

/-- Duplicate-freeness of the keys of an association list. -/
def keysNodupB {α : Type} : List (String × α) → Bool
  | [] => true
  | (k, _) :: rest => !(rest.any (fun kv => kv.1 == k)) && keysNodupB rest

mutual

/-- Well-formed input value: every object in it has duplicate-free keys and no
key equal to the reserved digest key "__hash" (JavaScript objects cannot carry
duplicate keys; the reserved-key restriction is exactly the boundary
established by the C5 analysis). -/
def wfValue : JValue → Bool
  | .jnull => true
  | .jbool _ => true
  | .jnum _ => true
  | .jstr _ => true
  | .jarr elems => wfValueList elems
  | .jobj fields =>
    keysNodupB fields && !(fields.any (fun kv => kv.1 == "__hash")) && wfValueFields fields

/-- Well-formedness of array elements. -/
def wfValueList : List JValue → Bool
  | [] => true
  | v :: vs => wfValue v && wfValueList vs

/-- Well-formedness of object field values. -/
def wfValueFields : List (String × JValue) → Bool
  | [] => true
  | (_, v) :: rest => wfValue v && wfValueFields rest

end

example :
    rawBuildHashTree (.jobj [("a", .jnum 1)]) =
      .obj [("__hash", .str (calculateHash ("a:" ++ calculateHash "1"))),
            ("a", .obj [("__hash", .str (calculateHash "1"))])] := rfl

example : rawOk (rawBuildHashTree (.jobj [("a", .jnum 1)])) = true := rfl

mutual

/-- Structural size of a value, used as the recursion fuel bound of the
differencing pass. -/
def jvSize : JValue → Nat
  | .jnull => 1
  | .jbool _ => 1
  | .jnum _ => 1
  | .jstr _ => 1
  | .jarr elems => jvSizeList elems + 1
  | .jobj fields => jvSizeFields fields + 1

/-- Size over array elements. -/
def jvSizeList : List JValue → Nat
  | [] => 0
  | v :: vs => jvSize v + jvSizeList vs

/-- Size over object fields. -/
def jvSizeFields : List (String × JValue) → Nat
  | [] => 0
  | (_, v) :: rest => jvSize v + jvSizeFields rest

end

/-- Kind of a difference notification (DifferenceEvent, FindDifferences.ts
lines 15-18). -/
inductive DiffType where
  | added
  | removed
  | modified
deriving DecidableEq, Repr

/-- A difference notification: kind and dot-joined path. -/
structure DifferenceEvent where
  type : DiffType
  path : String
deriving DecidableEq, Repr

/-- Dot-joined path extension: path ? path + "." + key : key. -/
def joinPath (path key : String) : String :=
  if path == "" then key else path ++ "." ++ key

/-- Outcome payload of an engine pass: resulting tree (the in-place mutation of
the input tree), the difference events emitted in order, and the number of
calculateHash invocations performed. -/
structure UpdateOut where
  tree : HashTree
  events : List DifferenceEvent
  hashCalls : Nat

/-- Result of findDifferencesAndUpdate: normal return, a thrown TypeError (the
"in" operator applied to a non-object snapshot) carrying the state at the
throw, or exhaustion of the recursion fuel (never reached from detectChanges). -/
inductive UpdateResult where
  | ok (out : UpdateOut)
  | typeError (out : UpdateOut)
  | outOfFuel

/-- Child lookup hashTree[key]. -/
def getChild (t : HashTree) (k : String) : Option HashTree :=
  (childrenOf t).lookup k

/-- Whether the tree object has a child under the key. -/
def hasChildKey (t : HashTree) (k : String) : Bool :=
  (childrenOf t).any (fun kv => kv.1 == k)

/-- The test "key in hashTree": the raw node is a plain object carrying its
digest under the own property "__hash" next to the children, so that key
always tests present, as do the names the "in" operator finds on
Object.prototype through the prototype chain. -/
def keyInTree (t : HashTree) (k : String) : Bool :=
  k == "__hash" || hasChildKey t k || objProtoNames.any (fun p => p == k)

/-- delete hashTree[key]. -/
def removeChild (t : HashTree) (k : String) : HashTree :=
  .node (hashOf t) ((childrenOf t).filter (fun kv => !(kv.1 == k)))

/-- Assignment of a child in place: existing keys keep their slot, new keys
are appended. -/
def assignChild : List (String × HashTree) → String → HashTree → List (String × HashTree)
  | [], k, c => [(k, c)]
  | (k0, c0) :: rest, k, c =>
    if k0 == k then (k0, c) :: rest else (k0, c0) :: assignChild rest k c

/-- hashTree[key] = child. -/
def setChild (t : HashTree) (k : String) (c : HashTree) : HashTree :=
  .node (hashOf t) (assignChild (childrenOf t) k c)

/-- (hashTree[key] as HashTreeNode).__hash = h, keeping the child's children
(FindDifferences.ts lines 192 and 227 mutate only the digest).  The key is
present at every call site. -/
def setChildHash (t : HashTree) (k : String) (h : String) : HashTree :=
  match getChild t k with
  | some c => setChild t k (.node h (childrenOf c))
  | none => t

/-- Digest recomputation at the end of findDifferencesAndUpdate (lines
289-294): hash of the "key:digest" concatenation over Object.entries of the
node minus "__hash", i.e. over the children in enumeration order. -/
def recomputeDigest (t : HashTree) : HashTree :=
  .node
    (calculateHash (joinSep ""
      ((jsOrderPairs (childrenOf t)).map (fun kv => kv.1 ++ ":" ++ hashOf kv.2))))
    (childrenOf t)

/-- processPrimitiveValue (lines 215-229): hash the serialized primitive,
compare with the stored child digest, emit modified and overwrite the digest
when they differ.  Call sites guarantee the child exists. -/
def processPrimitiveValue (t : HashTree) (jsonValue : JValue) (key currentPath : String) :
    HashTree × List DifferenceEvent × Nat :=
  let newPrimitiveHash := calculateHash (serialize jsonValue)
  match getChild t key with
  | some c =>
    if hashOf c == newPrimitiveHash then (t, [], 1)
    else (setChildHash t key newPrimitiveHash, [⟨.modified, currentPath⟩], 1)
  | none => (t, [], 1)

/-- processObjectValue (lines 179-204), parameterised by the recursive call
into findDifferencesAndUpdate.  A truthy jsonValue.type marks an opaque value:
hash it whole and update the child digest in place (children untouched).
Otherwise recurse into the child, substituting the placeholder node for a
missing child (the typeof guard at line 195; children are always nodes here). -/
def processObjectValueGo (rec : HashTree → JValue → String → UpdateResult)
    (t : HashTree) (jsonValue : JValue) (key currentPath : String) : UpdateResult :=
  if valueTruthyType jsonValue then
    let newPrimitiveHash := calculateHash (serialize jsonValue)
    match getChild t key with
    | some c =>
      if hashOf c == newPrimitiveHash then .ok ⟨t, [], 1⟩
      else .ok ⟨setChildHash t key newPrimitiveHash, [⟨.modified, currentPath⟩], 1⟩
    | none => .ok ⟨t, [], 1⟩
  else
    let child := (getChild t key).getD (.node "" [])
    match rec child jsonValue currentPath with
    | .ok ⟨c2, e, n⟩ => .ok ⟨setChild t key c2, e, n⟩
    | .typeError ⟨c2, e, n⟩ => .typeError ⟨setChild t key c2, e, n⟩
    | .outOfFuel => .outOfFuel

/-- processKeyValue (lines 156-168): dispatch on typeof jsonData[key].  The
key is present in the snapshot at every call site. -/
def processKeyValueGo (rec : HashTree → JValue → String → UpdateResult)
    (t : HashTree) (jsonData : JValue) (key currentPath : String) : UpdateResult :=
  match jGet jsonData key with
  | some jsonValue =>
    if isObjLike jsonValue then processObjectValueGo rec t jsonValue key currentPath
    else
      let r := processPrimitiveValue t jsonValue key currentPath
      .ok ⟨r.1, r.2.1, r.2.2⟩
  | none => .ok ⟨t, [], 0⟩

/-- processExistingKeys (lines 126-145) over the enumerated child keys ("for
key in hashTree" skipping "__hash", which the structured node keeps out of the
child list).  Evaluating "key in jsonData" on a non-object snapshot throws a
TypeError before anything else happens for that key; a key absent from the
snapshot is removed with a removed event; otherwise the key is processed and
iteration continues on the mutated tree. -/
def processExistingKeysGo (rec : HashTree → JValue → String → UpdateResult)
    (t : HashTree) (keys : List String) (jsonData : JValue) (path : String) : UpdateResult :=
  match keys with
  | [] => .ok ⟨t, [], 0⟩
  | key :: rest =>
    let currentPath := joinPath path key
    if !(isObjLike jsonData) then .typeError ⟨t, [], 0⟩
    else if !(keyInValue jsonData key) then
      match processExistingKeysGo rec (removeChild t key) rest jsonData path with
      | .ok ⟨t2, e, n⟩ => .ok ⟨t2, ⟨.removed, currentPath⟩ :: e, n⟩
      | .typeError ⟨t2, e, n⟩ => .typeError ⟨t2, ⟨.removed, currentPath⟩ :: e, n⟩
      | .outOfFuel => .outOfFuel
    else
      match processKeyValueGo rec t jsonData key currentPath with
      | .ok ⟨t2, e, n⟩ =>
        match processExistingKeysGo rec t2 rest jsonData path with
        | .ok ⟨t3, e2, n2⟩ => .ok ⟨t3, e ++ e2, n + n2⟩
        | .typeError ⟨t3, e2, n2⟩ => .typeError ⟨t3, e ++ e2, n + n2⟩
        | .outOfFuel => .outOfFuel
      | .typeError o => .typeError o
      | .outOfFuel => .outOfFuel

/-- processAddedKeys (lines 239-258) over the snapshot's enumerated own keys:
a key not yet in the tree object ("__hash" always tests present) emits an
added event and attaches a freshly built subtree for object-like values, or a
hashed leaf for primitives. -/
def processAddedKeysGo (t : HashTree) (keys : List String) (jsonData : JValue) (path : String) :
    HashTree × List DifferenceEvent × Nat :=
  match keys with
  | [] => (t, [], 0)
  | key :: rest =>
    let currentPath := joinPath path key
    if keyInTree t key then processAddedKeysGo t rest jsonData path
    else
      match jGet jsonData key with
      | some jsonValue =>
        let attached :=
          if isObjLike jsonValue then (buildHashTree jsonValue, buildCalls jsonValue)
          else (HashTree.node (calculateHash (serialize jsonValue)) [], 1)
        let r := processAddedKeysGo (setChild t key attached.1) rest jsonData path
        (r.1, ⟨.added, currentPath⟩ :: r.2.1, attached.2 + r.2.2)
      | none => processAddedKeysGo t rest jsonData path

/-- findDifferencesAndUpdate (lines 275-295), structurally recursive on a fuel
bound (detectChanges supplies a sufficient bound; each nested call descends
into a strictly smaller snapshot value).  Hash the serialized snapshot and
return untouched on digest equality; otherwise run the removed/updated pass
over the existing child keys, then the added pass over the snapshot keys, and
finally recompute this node's digest from its current children. -/
def findDifferencesAndUpdateF : Nat → HashTree → JValue → String → UpdateResult
  | 0, _, _, _ => .outOfFuel
  | fuel + 1, t, jsonData, path =>
    let newHash := calculateHash (serialize jsonData)
    if hashOf t == newHash then .ok ⟨t, [], 1⟩
    else
      match processExistingKeysGo (findDifferencesAndUpdateF fuel) t
          ((jsOrderPairs (childrenOf t)).map (fun kv => kv.1)) jsonData path with
      | .ok ⟨t2, e1, n1⟩ =>
        let r := processAddedKeysGo t2 (enumValueKeys jsonData) jsonData path
        .ok ⟨recomputeDigest r.1, e1 ++ r.2.1, 1 + n1 + r.2.2 + 1⟩
      | .typeError ⟨t2, e1, n1⟩ => .typeError ⟨t2, e1, 1 + n1⟩
      | .outOfFuel => .outOfFuel

/-- The placeholder root held by a freshly constructed engine (constructor,
line 45). -/
def emptyEngineTree : HashTree := .node "" []

/-- The initialization operation (lines 308-310): build the tree and store it
as the new baseline. -/
def initHashTree (jsonData : JValue) : HashTree := buildHashTree jsonData

/-- detectChanges (lines 325-328): run findDifferencesAndUpdate on the stored
tree at the root path with sufficient fuel (jvSize strictly decreases into
every nested snapshot value, so jvSize + 1 levels always suffice). -/
def detectChanges (t : HashTree) (jsonData : JValue) : UpdateResult :=
  findDifferencesAndUpdateF (jvSize jsonData + 1) t jsonData ""

/-- Events of a normal result (empty otherwise). -/
def okEvents : UpdateResult → List DifferenceEvent
  | .ok o => o.events
  | _ => []

/-- Tree of a normal result (placeholder otherwise). -/
def okTree : UpdateResult → HashTree
  | .ok o => o.tree
  | _ => emptyEngineTree

/-- Hash-call count of a normal result (zero otherwise). -/
def okCalls : UpdateResult → Nat
  | .ok o => o.hashCalls
  | _ => 0

/-- Whether the result is a normal return. -/
def isOk : UpdateResult → Bool
  | .ok _ => true
  | _ => false

example :
    okEvents (detectChanges (initHashTree (.jobj [("n", .jobj [("k", .jstr "v")])]))
      (.jobj [("n", .jobj [("k", .jstr "w")])])) = [⟨.modified, "n.k"⟩] := by decide

/-- C1, counterexample.  Initializing with the value a:(b:1) and updating with
the byte-identical value: the short-circuit comparison at the root fails (the
stored digest is the children-combination digest, not the serialization
digest), no notification is emitted, and the update performs five calculateHash
invocations instead of the single root check the claim predicts — digests are
recomputed for the descendants of the unchanged subtree. -/
theorem c1_counterexample :
    calculateHash (serialize (.jobj [("a", .jobj [("b", .jnum 1)])])) ≠
      hashOf (initHashTree (.jobj [("a", .jobj [("b", .jnum 1)])])) ∧
    isOk (detectChanges (initHashTree (.jobj [("a", .jobj [("b", .jnum 1)])]))
      (.jobj [("a", .jobj [("b", .jnum 1)])])) = true ∧
    okEvents (detectChanges (initHashTree (.jobj [("a", .jobj [("b", .jnum 1)])]))
      (.jobj [("a", .jobj [("b", .jnum 1)])])) = [] ∧
    okCalls (detectChanges (initHashTree (.jobj [("a", .jobj [("b", .jnum 1)])]))
      (.jobj [("a", .jobj [("b", .jnum 1)])])) = 5 ∧
    1 < okCalls (detectChanges (initHashTree (.jobj [("a", .jobj [("b", .jnum 1)])]))
      (.jobj [("a", .jobj [("b", .jnum 1)])])) := by
  refine ⟨by decide, by decide, by decide, by decide, by decide⟩

/-- C1, amended: the short-circuit fires exactly when the stored digest equals
the digest of the serialized snapshot; the call then returns the tree
untouched, emits nothing, and performs exactly one digest computation (and in
particular none on any descendant). -/
theorem c1_short_circuit (fuel : Nat) (t : HashTree) (v : JValue) (p : String)
    (h : hashOf t = calculateHash (serialize v)) :
    findDifferencesAndUpdateF (fuel + 1) t v p = .ok ⟨t, [], 1⟩ := by
  simp [findDifferencesAndUpdateF, h]

/-- C1, witness: a primitive baseline stores the serialization digest itself,
so updating it with the identical value short-circuits. -/
theorem c1_short_circuit_witness :
    findDifferencesAndUpdateF (jvSize (.jnum 5) + 1) (initHashTree (.jnum 5)) (.jnum 5) "" =
      .ok ⟨initHashTree (.jnum 5), [], 1⟩ :=
  c1_short_circuit (jvSize (.jnum 5)) (initHashTree (.jnum 5)) (.jnum 5) "" (by decide)

/-- C2.  Initializing with b:1 and updating with (b:1, a:2) yields a tree whose
child digests agree with a freshly built tree for the same content, yet whose
root digest differs: the update combines children in enumeration order (prior
key b first, added key a appended) while the builder combines them in
lexicographically sorted order. -/
theorem c2_update_order_digest_divergence :
    hashOf (okTree (detectChanges (initHashTree (.jobj [("b", .jnum 1)]))
        (.jobj [("b", .jnum 1), ("a", .jnum 2)]))) ≠
      hashOf (buildHashTree (.jobj [("b", .jnum 1), ("a", .jnum 2)])) ∧
    (getChild (okTree (detectChanges (initHashTree (.jobj [("b", .jnum 1)]))
        (.jobj [("b", .jnum 1), ("a", .jnum 2)]))) "a").map hashOf =
      (getChild (buildHashTree (.jobj [("b", .jnum 1), ("a", .jnum 2)])) "a").map hashOf ∧
    (getChild (okTree (detectChanges (initHashTree (.jobj [("b", .jnum 1)]))
        (.jobj [("b", .jnum 1), ("a", .jnum 2)]))) "b").map hashOf =
      (getChild (buildHashTree (.jobj [("b", .jnum 1), ("a", .jnum 2)])) "b").map hashOf ∧
    okEvents (detectChanges (initHashTree (.jobj [("b", .jnum 1)]))
        (.jobj [("b", .jnum 1), ("a", .jnum 2)])) = [⟨.added, "a"⟩] := by
  refine ⟨by decide, by decide, by decide, by decide⟩

/-- C3, counterexample.  Initializing with s:(a:1) and updating with s now an
opaque object (truthy type): exactly one modified notification is emitted at
path s and the stored digest becomes the serialization digest of the opaque
object, but the child is not replaced by a fresh leaf — its stale child a
survives (the TypeScript engine mutates only __hash, lines 187-192). -/
theorem c3_counterexample :
    okEvents (detectChanges (initHashTree (.jobj [("s", .jobj [("a", .jnum 1)])]))
      (.jobj [("s", .jobj [("type", .jstr "X")])])) = [⟨.modified, "s"⟩] ∧
    (getChild (okTree (detectChanges (initHashTree (.jobj [("s", .jobj [("a", .jnum 1)])]))
      (.jobj [("s", .jobj [("type", .jstr "X")])]))) "s").map
        (fun c => (childrenOf c).map (fun kv => kv.1)) = some ["a"] ∧
    (getChild (okTree (detectChanges (initHashTree (.jobj [("s", .jobj [("a", .jnum 1)])]))
      (.jobj [("s", .jobj [("type", .jstr "X")])]))) "s").map hashOf =
      some (calculateHash (serialize (.jobj [("type", .jstr "X")]))) := by
  refine ⟨by decide, by decide, by decide⟩

/-- C6.  Initializing with n:(k:"v") and updating with n:(k:"w") emits exactly
one notification, modified at the dot-joined path n.k, and in particular none
at path n. -/
theorem c6_nested_modification :
    okEvents (detectChanges (initHashTree (.jobj [("n", .jobj [("k", .jstr "v")])]))
      (.jobj [("n", .jobj [("k", .jstr "w")])])) = [⟨.modified, "n.k"⟩] ∧
    isOk (detectChanges (initHashTree (.jobj [("n", .jobj [("k", .jstr "v")])]))
      (.jobj [("n", .jobj [("k", .jstr "w")])])) = true := by
  refine ⟨by decide, by decide⟩

/-- C4, counterexample.  From the state reached by initializing with x:1, two
successive updates with the value (x:1, a:[1]): the first attaches the array
subtree (one added notification), the second emits nothing but still changes
the root digest, because it rewrites the freshly built array child's digest
from the build-time keyless concatenation to the update-time "key:digest"
concatenation. -/
theorem c4_counterexample :
    isOk (detectChanges (initHashTree (.jobj [("x", .jnum 1)]))
      (.jobj [("x", .jnum 1), ("a", .jarr [.jnum 1])])) = true ∧
    okEvents (detectChanges (okTree (detectChanges (initHashTree (.jobj [("x", .jnum 1)]))
        (.jobj [("x", .jnum 1), ("a", .jarr [.jnum 1])])))
      (.jobj [("x", .jnum 1), ("a", .jarr [.jnum 1])])) = [] ∧
    hashOf (okTree (detectChanges (okTree (detectChanges (initHashTree (.jobj [("x", .jnum 1)]))
        (.jobj [("x", .jnum 1), ("a", .jarr [.jnum 1])])))
      (.jobj [("x", .jnum 1), ("a", .jarr [.jnum 1])]))) ≠
      hashOf (okTree (detectChanges (initHashTree (.jobj [("x", .jnum 1)]))
        (.jobj [("x", .jnum 1), ("a", .jarr [.jnum 1])]))) := by
  refine ⟨by decide, by decide, by decide⟩

/-- C5, counterexample.  Building the value with the single key "__hash": the
digest is stored in-band under that same reserved key, so the child produced
for the input key overwrites the node's digest slot — the resulting raw object
has no string digest at all, and the out-of-band/disjointness property fails. -/
theorem c5_counterexample :
    rawBuildHashTree (.jobj [("__hash", .jnum 1)]) =
      .obj [("__hash", .obj [("__hash", .str (calculateHash "1"))])] ∧
    rawOk (rawBuildHashTree (.jobj [("__hash", .jnum 1)])) = false := by
  exact ⟨rfl, rfl⟩

/-- C7, counterexample.  Swapping the two plain-object elements of the array
[(a:1), (b:2)] between snapshots emits removed/added notifications at paths
under the affected indices (0.a, 0.b, 1.b, 1.a) and no modified notification
at the index paths 0 or 1 — elements are compared positionally, but a swapped
structural element is diffed by recursion, not reported as modified at its
index. -/
theorem c7_counterexample :
    okEvents (detectChanges
      (initHashTree (.jarr [.jobj [("a", .jnum 1)], .jobj [("b", .jnum 2)]]))
      (.jarr [.jobj [("b", .jnum 2)], .jobj [("a", .jnum 1)]])) =
      [⟨.removed, "0.a"⟩, ⟨.added, "0.b"⟩, ⟨.removed, "1.b"⟩, ⟨.added, "1.a"⟩] ∧
    ¬ (⟨.modified, "0"⟩ ∈ okEvents (detectChanges
      (initHashTree (.jarr [.jobj [("a", .jnum 1)], .jobj [("b", .jnum 2)]]))
      (.jarr [.jobj [("b", .jnum 2)], .jobj [("a", .jnum 1)]]))) ∧
    ¬ (⟨.modified, "1"⟩ ∈ okEvents (detectChanges
      (initHashTree (.jarr [.jobj [("a", .jnum 1)], .jobj [("b", .jnum 2)]]))
      (.jarr [.jobj [("b", .jnum 2)], .jobj [("a", .jnum 1)]]))) := by
  refine ⟨by decide, by decide, by decide⟩

/-- C8, counterexample.  The plain object with keys "10" and "9": the children
are built per sorted key, but the digest combines the "key:digest" strings in
JavaScript enumeration order of the built record — canonical integer-like keys
ascending numerically ("9" before "10") — not in the lexicographically sorted
order ("10" before "9") the claim states. -/
theorem c8_counterexample :
    hashOf (buildHashTree (.jobj [("10", .jnum 1), ("9", .jnum 2)])) =
      calculateHash ("9:" ++ calculateHash "2" ++ "10:" ++ calculateHash "1") ∧
    hashOf (buildHashTree (.jobj [("10", .jnum 1), ("9", .jnum 2)])) ≠
      calculateHash ("10:" ++ calculateHash "1" ++ "9:" ++ calculateHash "2") := by
  exact ⟨rfl, by decide⟩

theorem length_filter_partition {α : Type} (p : α → Bool) (l : List α) :
    (l.filter p).length + (l.filter (fun a => !(p a))).length = l.length := by
  induction l with
  | nil => rfl
  | cons x xs ih =>
    by_cases h : p x <;> simp [List.filter_cons, h] <;> omega

theorem jsOrderPairs_length {α : Type} (l : List (String × α)) :
    (jsOrderPairs l).length = l.length := by
  unfold jsOrderPairs
  rw [List.length_append, List.length_insertionSort]
  exact length_filter_partition _ l

theorem jsOrderPairs_ne_nil {α : Type} (l : List (String × α)) (h : l.isEmpty = false) :
    jsOrderPairs l ≠ [] := by
  intro hc
  have hlen := jsOrderPairs_length l
  rw [hc] at hlen
  cases l with
  | nil => simp at h
  | cons x xs => simp at hlen

/-- C9.  With a stored tree that has at least one structural child and a
primitive, non-null snapshot whose serialization digest differs from the root
digest, the update throws the TypeError raised by applying the key-membership
test to a non-object, emitting nothing and leaving the tree as it was at the
throw. -/
theorem c9_type_error (t : HashTree) (v : JValue)
    (hv : isObjLike v = false) (_hnull : v ≠ .jnull)
    (hne : (childrenOf t).isEmpty = false)
    (hh : hashOf t ≠ calculateHash (serialize v)) :
    detectChanges t v = .typeError ⟨t, [], 1⟩ := by
  have hkeys : ((jsOrderPairs (childrenOf t)).map (fun kv => kv.1)) ≠ [] := by
    intro hc
    exact jsOrderPairs_ne_nil _ hne (List.map_eq_nil_iff.mp hc)
  unfold detectChanges
  rw [findDifferencesAndUpdateF]
  have hbeq : (hashOf t == calculateHash (serialize v)) = false := by
    exact beq_eq_false_iff_ne.mpr hh
  rw [hbeq]
  simp only [Bool.false_eq_true, if_false]
  cases hk : (jsOrderPairs (childrenOf t)).map (fun kv => kv.1) with
  | nil => exact absurd hk hkeys
  | cons k rest =>
    rw [processExistingKeysGo, hv]
    rfl

/-- C9, witness: the baseline a:1 updated with the primitive 5. -/
theorem c9_type_error_witness :
    detectChanges (initHashTree (.jobj [("a", .jnum 1)])) (.jnum 5) =
      .typeError ⟨initHashTree (.jobj [("a", .jnum 1)]), [], 1⟩ :=
  c9_type_error (initHashTree (.jobj [("a", .jnum 1)])) (.jnum 5)
    (by decide) (by intro h; cases h) (by decide) (by decide)

/-- C3, amended.  During update, when the existing key s now holds an object
with a truthy type discriminator whose whole-object digest differs from the
stored child digest, exactly one modified notification is emitted at path s
and the stored child's digest is overwritten in place with the new digest —
the child keeps whatever children it had (it becomes a fresh-digest leaf only
when it already was a leaf), and the engine never recurses into the opaque
object. -/
theorem c3_opaque_modified_in_place (w : JValue) (zf : List (String × JValue))
    (hz : hasTruthyTypeField zf = true)
    (hroot : hashOf (buildHashTree (.jobj [("s", w)])) ≠
      calculateHash (serialize (.jobj [("s", .jobj zf)])))
    (hchild : hashOf (buildHashTree w) ≠ calculateHash (serialize (.jobj zf))) :
    detectChanges (initHashTree (.jobj [("s", w)])) (.jobj [("s", .jobj zf)]) =
      .ok ⟨recomputeDigest (setChild (buildHashTree (.jobj [("s", w)])) "s"
            (.node (calculateHash (serialize (.jobj zf))) (childrenOf (buildHashTree w)))),
          [⟨.modified, "s"⟩], 3⟩ := by
  have hb : buildHashTree (.jobj [("s", w)]) =
      .node (calculateHash ("s:" ++ hashOf (buildHashTree w))) [("s", buildHashTree w)] := by
    simp [buildHashTree, hasTruthyTypeField, List.lookup, buildHashTreeFields, sortByKeyLex,
      List.insertionSort, jsOrderPairs, isIndexKey, isDigitChar, joinSep]
  have hroot2 := hroot
  rw [hb] at hroot2
  unfold detectChanges initHashTree
  rw [hb]
  rw [findDifferencesAndUpdateF]
  have hbeq : (hashOf (HashTree.node (calculateHash ("s:" ++ hashOf (buildHashTree w)))
      [("s", buildHashTree w)]) == calculateHash (serialize (.jobj [("s", .jobj zf)]))) = false := by
    exact beq_eq_false_iff_ne.mpr hroot2
  rw [hbeq]
  have hcbeq : (hashOf (buildHashTree w) == calculateHash (serialize (.jobj zf))) = false := by
    exact beq_eq_false_iff_ne.mpr hchild
  simp only [Bool.false_eq_true, if_false]
  have henum : (jsOrderPairs (childrenOf (HashTree.node
      (calculateHash ("s:" ++ hashOf (buildHashTree w))) [("s", buildHashTree w)]))).map
        (fun kv => kv.1) = ["s"] := by
    simp [jsOrderPairs, childrenOf, isIndexKey, isDigitChar, List.insertionSort]
  rw [henum]
  rw [processExistingKeysGo]
  simp only [isObjLike, Bool.not_true, Bool.false_eq_true, if_false,
    keyInValue, List.any_cons, List.any_nil, beq_self_eq_true, Bool.true_or,
    Bool.not_false, if_true]
  rw [processKeyValueGo]
  simp only [jGet, List.lookup, beq_self_eq_true, if_true, isObjLike]
  rw [processObjectValueGo]
  simp only [valueTruthyType, hz, if_true, getChild, childrenOf, List.lookup,
    beq_self_eq_true, hcbeq, Bool.false_eq_true, if_false]
  rw [processExistingKeysGo]
  simp [setChildHash, getChild, setChild, assignChild, childrenOf, hashOf,
    keyInTree, hasChildKey, processAddedKeysGo, joinPath, enumValueKeys,
    jsOrderPairs, List.filter, isIndexKey, isDigitChar, List.insertionSort]

/-- C3, witness: the opaque value s:(type:"X", payload:"p1") updated to
payload "p2" — exactly one modified at path s, digest overwritten in place. -/
theorem c3_opaque_modified_in_place_witness :
    detectChanges (initHashTree (.jobj [("s", .jobj [("type", .jstr "X"), ("payload", .jstr "p1")])]))
        (.jobj [("s", .jobj [("type", .jstr "X"), ("payload", .jstr "p2")])]) =
      .ok ⟨recomputeDigest (setChild
            (buildHashTree (.jobj [("s", .jobj [("type", .jstr "X"), ("payload", .jstr "p1")])])) "s"
            (.node (calculateHash (serialize (.jobj [("type", .jstr "X"), ("payload", .jstr "p2")])))
              (childrenOf (buildHashTree (.jobj [("type", .jstr "X"), ("payload", .jstr "p1")]))))),
          [⟨.modified, "s"⟩], 3⟩ :=
  c3_opaque_modified_in_place (.jobj [("type", .jstr "X"), ("payload", .jstr "p1")])
    [("type", .jstr "X"), ("payload", .jstr "p2")] (by decide) (by decide) (by decide)

mutual

/-- Mutual structural induction over values, element lists and field lists. -/
def jvalInd (P : JValue → Prop) (Q : List JValue → Prop) (R : List (String × JValue) → Prop)
    (hnull : P .jnull) (hbool : ∀ b, P (.jbool b)) (hnum : ∀ n, P (.jnum n))
    (hstr : ∀ s, P (.jstr s))
    (harr : ∀ l, Q l → P (.jarr l)) (hobj : ∀ fl, R fl → P (.jobj fl))
    (hqnil : Q []) (hqcons : ∀ x xs, P x → Q xs → Q (x :: xs))
    (hrnil : R []) (hrcons : ∀ k x xs, P x → R xs → R ((k, x) :: xs)) :
    ∀ v, P v
  | .jnull => hnull
  | .jbool b => hbool b
  | .jnum n => hnum n
  | .jstr s => hstr s
  | .jarr l => harr l (jvalIndList P Q R hnull hbool hnum hstr harr hobj hqnil hqcons hrnil hrcons l)
  | .jobj fl => hobj fl (jvalIndFields P Q R hnull hbool hnum hstr harr hobj hqnil hqcons hrnil hrcons fl)

/-- Induction over element lists. -/
def jvalIndList (P : JValue → Prop) (Q : List JValue → Prop) (R : List (String × JValue) → Prop)
    (hnull : P .jnull) (hbool : ∀ b, P (.jbool b)) (hnum : ∀ n, P (.jnum n))
    (hstr : ∀ s, P (.jstr s))
    (harr : ∀ l, Q l → P (.jarr l)) (hobj : ∀ fl, R fl → P (.jobj fl))
    (hqnil : Q []) (hqcons : ∀ x xs, P x → Q xs → Q (x :: xs))
    (hrnil : R []) (hrcons : ∀ k x xs, P x → R xs → R ((k, x) :: xs)) :
    ∀ l : List JValue, Q l
  | [] => hqnil
  | x :: xs =>
    hqcons x xs (jvalInd P Q R hnull hbool hnum hstr harr hobj hqnil hqcons hrnil hrcons x)
      (jvalIndList P Q R hnull hbool hnum hstr harr hobj hqnil hqcons hrnil hrcons xs)

/-- Induction over field lists. -/
def jvalIndFields (P : JValue → Prop) (Q : List JValue → Prop) (R : List (String × JValue) → Prop)
    (hnull : P .jnull) (hbool : ∀ b, P (.jbool b)) (hnum : ∀ n, P (.jnum n))
    (hstr : ∀ s, P (.jstr s))
    (harr : ∀ l, Q l → P (.jarr l)) (hobj : ∀ fl, R fl → P (.jobj fl))
    (hqnil : Q []) (hqcons : ∀ x xs, P x → Q xs → Q (x :: xs))
    (hrnil : R []) (hrcons : ∀ k x xs, P x → R xs → R ((k, x) :: xs)) :
    ∀ fl : List (String × JValue), R fl
  | [] => hrnil
  | (k, x) :: xs =>
    hrcons k x xs (jvalInd P Q R hnull hbool hnum hstr harr hobj hqnil hqcons hrnil hrcons x)
      (jvalIndFields P Q R hnull hbool hnum hstr harr hobj hqnil hqcons hrnil hrcons xs)

end

theorem isDigitChar_digitChar (d : Nat) : isDigitChar (digitChar d) = true := by
  unfold digitChar
  split <;> rfl

theorem natDigits_all_digits (fuel n : Nat) :
    ∀ c ∈ natDigits fuel n, isDigitChar c = true := by
  induction fuel generalizing n with
  | zero => intro c hc; simp [natDigits] at hc
  | succ f ih =>
    intro c hc
    rw [natDigits] at hc
    by_cases h : n < 10
    · simp [h] at hc
      rw [hc]; exact isDigitChar_digitChar n
    · simp [h] at hc
      rcases hc with hc | hc
      · exact ih (n / 10) c hc
      · rw [hc]; exact isDigitChar_digitChar (n % 10)

theorem natToString_ne_hashKey (n : Nat) : natToString n ≠ "__hash" := by
  intro h
  have hdata : natDigits (n + 1) n = "__hash".data := congrArg String.data h
  have : ('_' : Char) ∈ natDigits (n + 1) n := by
    rw [hdata]; decide
  have := natDigits_all_digits (n + 1) n '_' this
  simp [isDigitChar] at this

theorem indexPairs_mem {α : Type} (l : List α) :
    ∀ i kv, kv ∈ indexPairs i l → kv.1 ≠ "__hash" ∧ kv.2 ∈ l := by
  induction l with
  | nil => intro i kv h; simp [indexPairs] at h
  | cons x xs ih =>
    intro i kv h
    rw [indexPairs] at h
    rcases List.mem_cons.mp h with h | h
    · rw [h]; exact ⟨natToString_ne_hashKey i, List.mem_cons_self _ _⟩
    · obtain ⟨h1, h2⟩ := ih (i + 1) kv h
      exact ⟨h1, List.mem_cons_of_mem _ h2⟩

theorem rawOkChildren_assignProp (rest : List (String × JSVal)) (k : String) (v : JSVal)
    (hrest : rawOkChildren rest = true) (hk : k ≠ "__hash") (hv : rawOk v = true) :
    rawOkChildren (assignProp rest k v) = true := by
  induction rest with
  | nil =>
    cases v with
    | str s => simp [rawOk] at hv
    | obj props =>
      simp [assignProp, rawOkChildren, hv]
      exact hk
  | cons kv0 rest0 ih =>
    obtain ⟨k0, v0⟩ := kv0
    cases v0 with
    | str s => simp [rawOkChildren] at hrest
    | obj props0 =>
      rw [rawOkChildren] at hrest
      simp only [Bool.and_eq_true, Bool.not_eq_true'] at hrest
      obtain ⟨⟨hk0, hok0⟩, hrest0⟩ := hrest
      rw [assignProp]
      by_cases he : (k0 == k) = true
      · rw [if_pos he]
        cases v with
        | str s => simp [rawOk] at hv
        | obj props =>
          rw [rawOkChildren]
          have hne : (k0 == "__hash") = false := by
            have hke : k0 = k := beq_iff_eq.mp he
            rw [hke]
            exact beq_eq_false_iff_ne.mpr hk
          simp [hne, hv, hrest0]
      · rw [if_neg he]
        rw [rawOkChildren]
        simp [hk0, hok0, ih hrest0]

theorem rawOk_objLit (h : String) (extra : List (String × JSVal))
    (hall : ∀ kv ∈ extra, kv.1 ≠ "__hash" ∧ rawOk kv.2 = true) :
    rawOk (.obj (objLit [("__hash", .str h)] extra)) = true := by
  suffices hgen : ∀ extra2 : List (String × JSVal),
      (∀ kv ∈ extra2, kv.1 ≠ "__hash" ∧ rawOk kv.2 = true) →
      ∀ rest, rawOkChildren rest = true →
      rawOk (.obj (extra2.foldl (fun acc kv => assignProp acc kv.1 kv.2)
        (("__hash", .str h) :: rest))) = true by
    exact hgen extra hall [] rfl
  intro extra2 hall2
  induction extra2 with
  | nil =>
    intro rest hrest
    simp [List.foldl, rawOk, hrest]
  | cons kv extras ih =>
    intro rest hrest
    obtain ⟨hk, hv⟩ := hall2 kv (List.mem_cons_self _ _)
    have hall3 : ∀ kv2 ∈ extras, kv2.1 ≠ "__hash" ∧ rawOk kv2.2 = true :=
      fun kv2 hm => hall2 kv2 (List.mem_cons_of_mem _ hm)
    have hstep : assignProp (("__hash", .str h) :: rest) kv.1 kv.2 =
        ("__hash", .str h) :: assignProp rest kv.1 kv.2 := by
      rw [assignProp]
      have hne : ("__hash" == kv.1) = false := by
        cases hx : ("__hash" == kv.1)
        · rfl
        · exact absurd (beq_iff_eq.mp hx).symm hk
      rw [if_neg (by simp [hne])]
    rw [List.foldl_cons, hstep]
    exact ih hall3 (assignProp rest kv.1 kv.2)
      (rawOkChildren_assignProp rest kv.1 kv.2 hrest hk hv)

theorem rawBuildFields_keys (fl : List (String × JValue)) :
    (rawBuildFields fl).map (fun kv => kv.1) = fl.map (fun kv => kv.1) := by
  induction fl with
  | nil => rfl
  | cons kv rest ih =>
    obtain ⟨k, x⟩ := kv
    rw [rawBuildFields]
    simp [ih]

theorem not_any_hashKey_of_wf (fl : List (String × JValue))
    (h : (fl.any (fun kv => kv.1 == "__hash")) = false) :
    ∀ key ∈ fl.map (fun kv => kv.1), key ≠ "__hash" := by
  intro key hk he
  rw [List.any_eq_false] at h
  obtain ⟨kv, hkv, hfst⟩ := List.mem_map.mp hk
  exact h kv hkv (by rw [hfst, he]; exact beq_self_eq_true _)

/-- C5, amended.  For every input value all of whose objects have
duplicate-free keys none of which is the reserved digest key "__hash", the
tree built by the engine stores, at every node of the raw JavaScript object,
the digest as a string under "__hash" disjoint from the child keys; the digest
is in-band, so this disjointness is exactly what the reserved-key restriction
buys (and the counterexample shows it is lost without it). -/
theorem c5_digest_disjoint (v : JValue) (h : wfValue v = true) :
    rawOk (rawBuildHashTree v) = true := by
  refine jvalInd
    (fun v => wfValue v = true → rawOk (rawBuildHashTree v) = true)
    (fun l => wfValueList l = true → ∀ x ∈ rawBuildList l, rawOk x = true)
    (fun fl => wfValueFields fl = true → ∀ kv ∈ rawBuildFields fl, rawOk kv.2 = true)
    ?_ ?_ ?_ ?_ ?_ ?_ ?_ ?_ ?_ ?_ v h
  · intro _; rfl
  · intro b _; cases b <;> rfl
  · intro n _; rfl
  · intro s _; rfl
  · intro l hQ hwf
    simp only [wfValue] at hwf
    simp only [rawBuildHashTree]
    refine rawOk_objLit _ _ ?_
    intro kv hkv
    obtain ⟨h1, h2⟩ := indexPairs_mem (rawBuildList l) 0 kv hkv
    exact ⟨h1, hQ hwf kv.2 h2⟩
  · intro fl hR hwf
    simp only [wfValue, Bool.and_eq_true] at hwf
    obtain ⟨⟨hnd, hnh⟩, hwff⟩ := hwf
    rw [rawBuildHashTree]
    by_cases ht : hasTruthyTypeField fl = true
    · rw [if_pos ht]; rfl
    · rw [if_neg ht]
      refine rawOk_objLit _ _ ?_
      intro kv hkv
      have hmem : kv ∈ rawBuildFields fl :=
        (List.Perm.mem_iff (List.perm_insertionSort _ _)).mp hkv
      have hkey : kv.1 ∈ fl.map (fun kv => kv.1) := by
        rw [← rawBuildFields_keys]
        exact List.mem_map_of_mem _ hmem
      refine ⟨not_any_hashKey_of_wf fl ?_ kv.1 hkey, hR hwff kv hmem⟩
      cases hx : fl.any (fun kv => kv.1 == "__hash")
      · rfl
      · rw [hx] at hnh; simp at hnh
  · intro _ x hx; rw [rawBuildList] at hx; simp at hx
  · intro x xs hP hQ hwf y hy
    simp only [wfValueList, Bool.and_eq_true] at hwf
    rw [rawBuildList] at hy
    rcases List.mem_cons.mp hy with hy | hy
    · rw [hy]; exact hP hwf.1
    · exact hQ hwf.2 y hy
  · intro _ kv hkv; rw [rawBuildFields] at hkv; simp at hkv
  · intro k x xs hP hR hwf kv hkv
    simp only [wfValueFields, Bool.and_eq_true] at hwf
    rw [rawBuildFields] at hkv
    rcases List.mem_cons.mp hkv with hkv | hkv
    · rw [hkv]; exact hP hwf.1
    · exact hR hwf.2 kv hkv

/-- C5, witness: a nested value with ordinary keys builds to a raw tree whose
digests sit disjoint from the children at every node. -/
theorem c5_digest_disjoint_witness :
    rawOk (rawBuildHashTree (.jobj [("a", .jnum 1), ("arr", .jarr [.jnum 2, .jobj [("b", .jnull)]])])) = true :=
  c5_digest_disjoint (.jobj [("a", .jnum 1), ("arr", .jarr [.jnum 2, .jobj [("b", .jnull)]])]) (by decide)

theorem charListLe_total (a b : List Char) : charListLe a b = true ∨ charListLe b a = true := by
  induction a generalizing b with
  | nil => left; rfl
  | cons x xs ih =>
    cases b with
    | nil => right; rfl
    | cons y ys =>
      rw [charListLe, charListLe]
      by_cases h1 : x.toNat < y.toNat
      · left; simp [h1]
      · by_cases h2 : y.toNat < x.toNat
        · right; simp [h2]
        · rcases ih ys with h | h
          · left; simp [h1, h2, h]
          · right; simp [h1, h2, h]

theorem strLe_total (a b : String) : strLe a b = true ∨ strLe b a = true :=
  charListLe_total a.data b.data

/-- Chain of adjacent lexicographic comparisons: the property "the keys are in
lexicographically sorted order" stated the way the specification reads. -/
def chainSortedKeys : List String → Bool
  | [] => true
  | [_] => true
  | a :: b :: rest => strLe a b && chainSortedKeys (b :: rest)

theorem chainSortedKeys_orderedInsert (x : String × HashTree) (l : List (String × HashTree))
    (h : chainSortedKeys (l.map (fun kv => kv.1)) = true) :
    chainSortedKeys ((List.orderedInsert (fun a b => strLe a.1 b.1) x l).map
      (fun kv => kv.1)) = true := by
  induction l with
  | nil => rfl
  | cons y ys ih =>
    simp only [List.orderedInsert]
    by_cases hxy : strLe x.1 y.1 = true
    · rw [if_pos hxy]
      simp only [List.map_cons]
      rw [chainSortedKeys]
      simp only [Bool.and_eq_true]
      exact ⟨hxy, by simpa using h⟩
    · rw [if_neg hxy]
      have hyx : strLe y.1 x.1 = true := by
        rcases strLe_total x.1 y.1 with hc | hc
        · exact absurd hc hxy
        · exact hc
      have htail : chainSortedKeys (ys.map (fun kv => kv.1)) = true := by
        cases ys with
        | nil => rfl
        | cons z zs =>
          simp only [List.map_cons] at h
          rw [chainSortedKeys] at h
          simp only [Bool.and_eq_true] at h
          exact h.2
      have hins := ih htail
      simp only [List.map_cons]
      cases ys with
      | nil =>
        simp only [List.orderedInsert, List.map_cons, List.map_nil]
        rw [chainSortedKeys]
        simp only [Bool.and_eq_true]
        exact ⟨hyx, rfl⟩
      | cons z zs =>
        simp only [List.orderedInsert]
        by_cases hxz : strLe x.1 z.1 = true
        · rw [if_pos hxz]
          simp only [List.map_cons]
          rw [chainSortedKeys]
          simp only [Bool.and_eq_true]
          refine ⟨hyx, ?_⟩
          simp only [List.orderedInsert] at hins
          rw [if_pos hxz] at hins
          simpa using hins
        · rw [if_neg hxz]
          simp only [List.map_cons]
          rw [chainSortedKeys]
          have hyz : strLe y.1 z.1 = true := by
            simp only [List.map_cons] at h
            rw [chainSortedKeys] at h
            simp only [Bool.and_eq_true] at h
            exact h.1
          simp only [Bool.and_eq_true]
          refine ⟨hyz, ?_⟩
          simp only [List.orderedInsert] at hins
          rw [if_neg hxz] at hins
          simpa using hins

theorem chainSortedKeys_sortByKeyLex (l : List (String × HashTree)) :
    chainSortedKeys ((sortByKeyLex l).map (fun kv => kv.1)) = true := by
  unfold sortByKeyLex
  induction l with
  | nil => rfl
  | cons x xs ih =>
    rw [List.insertionSort]
    exact chainSortedKeys_orderedInsert x _ ih

theorem jsOrderPairs_id_of_no_index {α : Type} (l : List (String × α))
    (h : l.all (fun kv => !(isIndexKey kv.1)) = true) : jsOrderPairs l = l := by
  unfold jsOrderPairs
  have hfil : l.filter (fun a => isIndexKey a.1) = [] := by
    rw [List.filter_eq_nil_iff]
    intro a ha
    have := List.all_eq_true.mp h a ha
    simp at this
    simp [this]
  have hfil2 : l.filter (fun a => !(isIndexKey a.1)) = l := by
    rw [List.filter_eq_self]
    intro a ha
    have := List.all_eq_true.mp h a ha
    simp at this
    simp [this]
  rw [hfil, hfil2]
  rfl

theorem buildHashTreeFields_keys (fl : List (String × JValue)) :
    (buildHashTreeFields fl).map (fun kv => kv.1) = fl.map (fun kv => kv.1) := by
  induction fl with
  | nil => rfl
  | cons kv rest ih =>
    obtain ⟨k, x⟩ := kv
    rw [buildHashTreeFields]
    simp [ih]

theorem all_keys_transfer {α β : Type} (p : String → Bool)
    (l : List (String × α)) (m : List (String × β))
    (hkeys : m.map (fun kv => kv.1) = l.map (fun kv => kv.1))
    (h : l.all (fun kv => p kv.1) = true) : m.all (fun kv => p kv.1) = true := by
  rw [List.all_eq_true] at h ⊢
  intro kv hkv
  have hmem : kv.1 ∈ m.map (fun kv => kv.1) := List.mem_map_of_mem _ hkv
  rw [hkeys] at hmem
  obtain ⟨kv2, hkv2, heq⟩ := List.mem_map.mp hmem
  have hp := h kv2 hkv2
  simp only at hp ⊢
  rw [← heq]
  exact hp

theorem all_of_perm {α : Type} (p : α → Bool) (l m : List α) (hperm : l.Perm m)
    (h : l.all p = true) : m.all p = true := by
  rw [List.all_eq_true] at h ⊢
  intro a ha
  exact h a (hperm.mem_iff.mpr ha)

/-- C8, amended.  For every plain object (no truthy discriminator) with
duplicate-free, non-integer-like keys, build produces a structural node whose
children are the per-key built subtrees in lexicographically sorted key order,
and whose digest is the hash of the concatenation of "key:digest" over the
children in that sorted order.  (With integer-like keys the children are still
sorted, but the digest combines them in JavaScript enumeration order — numeric
keys ascending first — which is what the counterexample exhibits.) -/
theorem c8_sorted_plain_object (fields : List (String × JValue))
    (hnt : hasTruthyTypeField fields = false)
    (hni : fields.all (fun kv => !(isIndexKey kv.1)) = true) :
    buildHashTree (.jobj fields) =
      .node
        (calculateHash (joinSep ""
          ((sortByKeyLex (buildHashTreeFields fields)).map
            (fun kv => kv.1 ++ ":" ++ hashOf kv.2))))
        (sortByKeyLex (buildHashTreeFields fields)) ∧
    chainSortedKeys ((childrenOf (buildHashTree (.jobj fields))).map (fun kv => kv.1)) = true := by
  have hbf : (buildHashTreeFields fields).all (fun kv => !(isIndexKey kv.1)) = true :=
    all_keys_transfer (fun k => !(isIndexKey k)) fields (buildHashTreeFields fields)
      (buildHashTreeFields_keys fields) hni
  have hsorted : (sortByKeyLex (buildHashTreeFields fields)).all
      (fun kv => !(isIndexKey kv.1)) = true :=
    all_of_perm _ _ _ (List.perm_insertionSort _ _).symm hbf
  have hb : buildHashTree (.jobj fields) =
      .node
        (calculateHash (joinSep ""
          ((sortByKeyLex (buildHashTreeFields fields)).map
            (fun kv => kv.1 ++ ":" ++ hashOf kv.2))))
        (sortByKeyLex (buildHashTreeFields fields)) := by
    rw [buildHashTree]
    rw [if_neg (by simp [hnt])]
    simp only [jsOrderPairs_id_of_no_index _ hsorted]
  refine ⟨hb, ?_⟩
  rw [hb]
  exact chainSortedKeys_sortByKeyLex (buildHashTreeFields fields)

/-- C8, witness: the plain object (b:1, a:2) builds to children in sorted
order a,b with the digest combined in that order. -/
theorem c8_sorted_plain_object_witness :
    buildHashTree (.jobj [("b", .jnum 1), ("a", .jnum 2)]) =
      .node
        (calculateHash (joinSep ""
          ((sortByKeyLex (buildHashTreeFields [("b", .jnum 1), ("a", .jnum 2)])).map
            (fun kv => kv.1 ++ ":" ++ hashOf kv.2))))
        (sortByKeyLex (buildHashTreeFields [("b", .jnum 1), ("a", .jnum 2)])) ∧
    chainSortedKeys
      ((childrenOf (buildHashTree (.jobj [("b", .jnum 1), ("a", .jnum 2)]))).map
        (fun kv => kv.1)) = true :=
  c8_sorted_plain_object [("b", .jnum 1), ("a", .jnum 2)] (by decide) (by decide)

theorem jsOrderPairs_perm {α : Type} (l : List (String × α)) : (jsOrderPairs l).Perm l := by
  unfold jsOrderPairs
  have h1 : (List.insertionSort (fun a b => parseNat a.1 ≤ parseNat b.1)
      (l.filter (fun a => isIndexKey a.1))).Perm (l.filter (fun a => isIndexKey a.1)) :=
    List.perm_insertionSort _ _
  exact (h1.append_right _).trans (List.filter_append_perm _ l)

theorem keysNodupB_nodup {α : Type} (l : List (String × α)) (h : keysNodupB l = true) :
    (l.map (fun kv => kv.1)).Nodup := by
  induction l with
  | nil => exact List.nodup_nil
  | cons kv rest ih =>
    rw [keysNodupB] at h
    simp only [Bool.and_eq_true] at h
    obtain ⟨hny, hrest⟩ := h
    simp only [List.map_cons, List.nodup_cons]
    refine ⟨?_, ih hrest⟩
    intro hmem
    obtain ⟨kv2, hkv2, heq⟩ := List.mem_map.mp hmem
    have : rest.any (fun kv2 => kv2.1 == kv.1) = true :=
      List.any_eq_true.mpr ⟨kv2, hkv2, by rw [heq]; exact beq_self_eq_true _⟩
    rw [this] at hny
    simp at hny

theorem lookup_eq_of_mem_nodup {α : Type} (l : List (String × α)) (k : String) (x : α)
    (hm : (k, x) ∈ l) (hnd : (l.map (fun kv => kv.1)).Nodup) : l.lookup k = some x := by
  induction l with
  | nil => simp at hm
  | cons kv rest ih =>
    obtain ⟨k0, x0⟩ := kv
    simp only [List.map_cons, List.nodup_cons] at hnd
    obtain ⟨hnotin, hndrest⟩ := hnd
    rcases List.mem_cons.mp hm with hm | hm
    · simp only [Prod.mk.injEq] at hm
      obtain ⟨hk, hx⟩ := hm
      subst hk
      subst hx
      simp [List.lookup]
    · have hkne : (k == k0) = false := by
        cases hx : (k == k0)
        · rfl
        · exfalso
          apply hnotin
          have hk0 : k = k0 := beq_iff_eq.mp hx
          rw [← hk0]
          have : k ∈ rest.map (fun kv => kv.1) :=
            List.mem_map.mpr ⟨(k, x), hm, rfl⟩
          exact this
      rw [List.lookup]
      simp only [hkne]
      exact ih hm hndrest

theorem parseDigits_cons (acc : Nat) (c : Char) (cs : List Char) :
    parseDigits acc (c :: cs) = parseDigits (acc * 10 + charDigitVal c) cs := rfl

theorem parseDigits_append (acc : Nat) (xs ys : List Char) :
    parseDigits acc (xs ++ ys) = parseDigits (parseDigits acc xs) ys := by
  induction xs generalizing acc with
  | nil => rfl
  | cons c cs ih =>
    rw [List.cons_append, parseDigits_cons, parseDigits_cons]
    exact ih (acc * 10 + charDigitVal c)

theorem charDigitVal_digitChar (d : Nat) (h : d < 10) : charDigitVal (digitChar d) = d := by
  have hall : (List.range 10).all (fun e => charDigitVal (digitChar e) == e) = true := by decide
  exact beq_iff_eq.mp (List.all_eq_true.mp hall d (List.mem_range.mpr h))

theorem natDigits_parse (fuel : Nat) :
    ∀ n, n < fuel → parseDigits 0 (natDigits fuel n) = n := by
  induction fuel with
  | zero => intro n h; omega
  | succ f ih =>
    intro n h
    rw [natDigits]
    by_cases h10 : n < 10
    · rw [if_pos h10, parseDigits_cons]
      show parseDigits (0 * 10 + charDigitVal (digitChar n)) [] = n
      rw [charDigitVal_digitChar n h10]
      show 0 * 10 + n = n
      omega
    · rw [if_neg h10, parseDigits_append]
      have hdiv : n / 10 < f := by
        have h1 : n / 10 < n := Nat.div_lt_self (by omega) (by omega)
        omega
      rw [ih (n / 10) hdiv, parseDigits_cons]
      show n / 10 * 10 + charDigitVal (digitChar (n % 10)) = n
      rw [charDigitVal_digitChar (n % 10) (Nat.mod_lt n (by omega))]
      omega

theorem parseNat_natToString (n : Nat) : parseNat (natToString n) = n :=
  natDigits_parse (n + 1) n (Nat.lt_succ_self n)

theorem natDigits_ne_nil (fuel n : Nat) (h : n < fuel) : natDigits fuel n ≠ [] := by
  cases fuel with
  | zero => omega
  | succ f =>
    rw [natDigits]
    by_cases h10 : n < 10
    · rw [if_pos h10]; intro hc; cases hc
    · rw [if_neg h10]; intro hc
      exact absurd (List.append_eq_nil.mp hc).2 (by intro hc2; cases hc2)

theorem digitChar_ne_zero (d : Nat) (h0 : 0 < d) (h10 : d < 10) : digitChar d ≠ '0' := by
  intro hc
  have := charDigitVal_digitChar d h10
  rw [hc] at this
  simp [charDigitVal] at this
  omega

theorem natDigits_head_ne_zero (fuel : Nat) :
    ∀ n c cs, 0 < n → n < fuel → natDigits fuel n = c :: cs → c ≠ '0' := by
  induction fuel with
  | zero => intro n c cs _ h; omega
  | succ f ih =>
    intro n c cs h0 h heq
    rw [natDigits] at heq
    by_cases h10 : n < 10
    · rw [if_pos h10] at heq
      obtain ⟨hc, _⟩ := List.cons.injEq .. ▸ heq
      rw [← hc]
      exact digitChar_ne_zero n h0 h10
    · rw [if_neg h10] at heq
      have hdiv0 : 0 < n / 10 := Nat.div_pos (by omega) (by omega)
      have hdivf : n / 10 < f := by
        have h1 : n / 10 < n := Nat.div_lt_self (by omega) (by omega)
        omega
      cases hd : natDigits f (n / 10) with
      | nil => exact absurd hd (natDigits_ne_nil f (n / 10) hdivf)
      | cons c0 cs0 =>
        rw [hd, List.cons_append] at heq
        obtain ⟨hc, _⟩ := List.cons.injEq .. ▸ heq
        rw [← hc]
        exact ih (n / 10) c0 cs0 hdiv0 hdivf hd

theorem isIndexKey_natToString (n : Nat) : isIndexKey (natToString n) = true := by
  rw [isIndexKey]
  show (match (natDigits (n + 1) n : List Char) with
    | [] => false
    | c :: cs => isDigitChar c && cs.all isDigitChar && (c ≠ '0' || cs = [])) = true
  cases hd : natDigits (n + 1) n with
  | nil => exact absurd hd (natDigits_ne_nil (n + 1) n (Nat.lt_succ_self n))
  | cons c cs =>
    have hall := natDigits_all_digits (n + 1) n
    rw [hd] at hall
    have hc : isDigitChar c = true := hall c (List.mem_cons_self _ _)
    have hcs : cs.all isDigitChar = true :=
      List.all_eq_true.mpr (fun x hx => hall x (List.mem_cons_of_mem _ hx))
    simp only [hc, hcs, Bool.true_and]
    by_cases h0 : n = 0
    · subst h0
      have : (natDigits 1 0 : List Char) = ['0'] := rfl
      rw [this] at hd
      obtain ⟨_, hcs0⟩ := List.cons.injEq .. ▸ hd
      simp [← hcs0]
    · have := natDigits_head_ne_zero (n + 1) n c cs (by omega) (Nat.lt_succ_self n) hd
      simp [this]

theorem digits_colon_split (xs : List Char) :
    ∀ (ys as bs : List Char), (∀ c ∈ xs, isDigitChar c = true) →
      (∀ c ∈ ys, isDigitChar c = true) →
      xs ++ ':' :: as = ys ++ ':' :: bs → xs = ys ∧ as = bs := by
  induction xs with
  | nil =>
    intro ys as bs _ hys heq
    cases ys with
    | nil => simpa using heq
    | cons y ys2 =>
      exfalso
      simp only [List.nil_append, List.cons_append] at heq
      obtain ⟨hy, _⟩ := List.cons.injEq .. ▸ heq
      have := hys y (List.mem_cons_self _ _)
      rw [← hy] at this
      simp [isDigitChar] at this
  | cons x xs2 ih =>
    intro ys as bs hxs hys heq
    cases ys with
    | nil =>
      exfalso
      simp only [List.cons_append, List.nil_append] at heq
      obtain ⟨hx, _⟩ := List.cons.injEq .. ▸ heq
      have := hxs x (List.mem_cons_self _ _)
      rw [hx] at this
      simp [isDigitChar] at this
    | cons y ys2 =>
      simp only [List.cons_append] at heq
      obtain ⟨hxy, htail⟩ := List.cons.injEq .. ▸ heq
      obtain ⟨h1, h2⟩ := ih ys2 as bs
        (fun c hc => hxs c (List.mem_cons_of_mem _ hc))
        (fun c hc => hys c (List.mem_cons_of_mem _ hc)) htail
      exact ⟨by rw [hxy, h1], h2⟩

theorem calculateHash_inj (a b : String) (h : calculateHash a = calculateHash b) : a = b := by
  rw [calculateHash, calculateHash] at h
  have hd := congrArg String.data h
  simp only [String.data_append, List.append_assoc, List.singleton_append] at hd
  have hsplit : (natToString a.length).data ++ ':' :: a.data =
      (natToString b.length).data ++ ':' :: b.data :=
    List.append_cancel_left hd
  obtain ⟨_, hab⟩ := digits_colon_split (natToString a.length).data
    (natToString b.length).data a.data b.data
    (fun c hc => natDigits_all_digits _ _ c hc)
    (fun c hc => natDigits_all_digits _ _ c hc) hsplit
  cases a; cases b
  exact congrArg String.mk hab

theorem natToString_inj (a b : Nat) (h : natToString a = natToString b) : a = b := by
  have := congrArg parseNat h
  rwa [parseNat_natToString, parseNat_natToString] at this

theorem joinPath_empty (k : String) : joinPath "" k = k := rfl

/-- get? of a mapped list. -/
theorem getq_map {α β : Type} (f : α → β) :
    ∀ (l : List α) (n : Nat), (l.map f).get? n = (l.get? n).map f
  | [], _ => by simp
  | _ :: _, 0 => rfl
  | _ :: l, n + 1 => getq_map f l n

/-- An in-bounds index has a member element under get?. -/
theorem getq_lt {α : Type} : ∀ (l : List α) (j : Nat), j < l.length →
    ∃ x, l.get? j = some x ∧ x ∈ l
  | [], _, h => by simp at h
  | a :: _, 0, _ => ⟨a, rfl, List.mem_cons_self _ _⟩
  | _ :: l, j + 1, h => by
    obtain ⟨x, h1, h2⟩ := getq_lt l j (by simpa using h)
    exact ⟨x, h1, List.mem_cons_of_mem _ h2⟩

theorem buildHashTreeList_eq_map (l : List JValue) :
    buildHashTreeList l = l.map buildHashTree := by
  induction l with
  | nil => rfl
  | cons v vs ih => rw [buildHashTreeList, ih, List.map_cons]

/-- A primitive or opaque value builds to a node whose digest is the
serialization digest. -/
theorem leafy_build_hash (v : JValue) (h : (!(isObjLike v) || valueTruthyType v) = true) :
    ∃ cs, buildHashTree v = .node (calculateHash (serialize v)) cs := by
  cases v with
  | jnull => exact ⟨[], rfl⟩
  | jbool b => exact ⟨[], rfl⟩
  | jnum n => exact ⟨[], rfl⟩
  | jstr s => exact ⟨[], rfl⟩
  | jarr elems => simp [isObjLike, valueTruthyType] at h
  | jobj fields =>
    simp only [isObjLike, valueTruthyType, Bool.not_true, Bool.false_or] at h
    exact ⟨[], by rw [buildHashTree, if_pos h]⟩

theorem indexPairs_lookup {α : Type} (l : List α) :
    ∀ (i j : Nat), j < l.length → (indexPairs i l).lookup (natToString (i + j)) = l.get? j := by
  induction l with
  | nil => intro i j h; simp at h
  | cons x xs ih =>
    intro i j h
    rw [indexPairs, List.lookup]
    cases j with
    | zero =>
      have : (natToString (i + 0) == natToString i) = true := by
        rw [Nat.add_zero]; exact beq_self_eq_true _
      rw [this]
      rfl
    | succ j2 =>
      have hne : (natToString (i + (j2 + 1)) == natToString i) = false := by
        refine beq_eq_false_iff_ne.mpr ?_
        intro hc
        have := natToString_inj _ _ hc
        omega
      rw [hne]
      have := ih (i + 1) j2 (by simpa using h)
      rw [show i + 1 + j2 = i + (j2 + 1) by omega] at this
      rw [this]
      rfl

theorem indexPairs_all_index {α : Type} (l : List α) :
    ∀ i, (indexPairs i l).all (fun kv => isIndexKey kv.1) = true := by
  induction l with
  | nil => intro i; rfl
  | cons x xs ih =>
    intro i
    rw [indexPairs, List.all_cons]
    simp only [Bool.and_eq_true]
    exact ⟨isIndexKey_natToString i, ih (i + 1)⟩

theorem indexPairs_parse_ge {α : Type} (l : List α) :
    ∀ i kv, kv ∈ indexPairs i l → i ≤ parseNat kv.1 := by
  induction l with
  | nil => intro i kv h; simp [indexPairs] at h
  | cons x xs ih =>
    intro i kv h
    rw [indexPairs] at h
    rcases List.mem_cons.mp h with h | h
    · rw [h]
      simp only
      rw [parseNat_natToString]
    · have := ih (i + 1) kv h
      omega

theorem indexPairs_sorted {α : Type} (l : List α) :
    ∀ i, List.Sorted (fun a b : String × α => parseNat a.1 ≤ parseNat b.1) (indexPairs i l) := by
  induction l with
  | nil => intro i; exact List.sorted_nil
  | cons x xs ih =>
    intro i
    rw [indexPairs]
    rw [List.sorted_cons]
    refine ⟨?_, ih (i + 1)⟩
    intro kv hkv
    simp only
    rw [parseNat_natToString]
    have := indexPairs_parse_ge xs (i + 1) kv hkv
    omega

theorem jsOrderPairs_indexPairs {α : Type} (l : List α) (i : Nat) :
    jsOrderPairs (indexPairs i l) = indexPairs i l := by
  unfold jsOrderPairs
  have hall := indexPairs_all_index l i
  have hfil : (indexPairs i l).filter (fun a => isIndexKey a.1) = indexPairs i l := by
    rw [List.filter_eq_self]
    intro a ha
    exact List.all_eq_true.mp hall a ha
  have hfil2 : (indexPairs i l).filter (fun a => !(isIndexKey a.1)) = [] := by
    rw [List.filter_eq_nil_iff]
    intro a ha
    have := List.all_eq_true.mp hall a ha
    simp at this ⊢
    simp [this]
  rw [hfil, hfil2, List.append_nil]
  exact List.Sorted.insertionSort_eq (indexPairs_sorted l i)

theorem lookup_assignChild_ne (cs : List (String × HashTree)) (k k2 : String) (c : HashTree)
    (h : k2 ≠ k) : (assignChild cs k c).lookup k2 = cs.lookup k2 := by
  have hbne : (k2 == k) = false := beq_eq_false_iff_ne.mpr h
  induction cs with
  | nil => simp [assignChild, List.lookup, hbne]
  | cons kv rest ih =>
    obtain ⟨k0, c0⟩ := kv
    rw [assignChild]
    by_cases h0 : (k0 == k) = true
    · rw [if_pos h0]
      have hk0 : k0 = k := beq_iff_eq.mp h0
      subst hk0
      rw [List.lookup, List.lookup, hbne]
    · rw [if_neg h0]
      rw [List.lookup, List.lookup]
      cases hx : (k2 == k0) with
      | true => rfl
      | false => exact ih

theorem lookup_assignChild_self (cs : List (String × HashTree)) (k : String) (c : HashTree) :
    (assignChild cs k c).lookup k = some c := by
  induction cs with
  | nil => simp [assignChild, List.lookup]
  | cons kv rest ih =>
    obtain ⟨k0, c0⟩ := kv
    rw [assignChild]
    by_cases h0 : (k0 == k) = true
    · rw [if_pos h0]
      have hk0 : k0 = k := beq_iff_eq.mp h0
      subst hk0
      rw [List.lookup]
      simp [beq_self_eq_true]
    · rw [if_neg h0]
      rw [List.lookup]
      have : (k == k0) = false := by
        cases hx : (k == k0)
        · rfl
        · exact absurd (by rw [beq_iff_eq.mp hx]; exact beq_self_eq_true _ : (k0 == k) = true) h0
      rw [this]
      exact ih

theorem assignChild_keys_present (cs : List (String × HashTree)) (k : String) (c : HashTree)
    (h : (cs.lookup k).isSome = true) :
    (assignChild cs k c).map (fun kv => kv.1) = cs.map (fun kv => kv.1) := by
  induction cs with
  | nil => simp [List.lookup] at h
  | cons kv rest ih =>
    obtain ⟨k0, c0⟩ := kv
    rw [assignChild]
    by_cases h0 : (k0 == k) = true
    · rw [if_pos h0]
      simp
    · rw [if_neg h0]
      rw [List.lookup] at h
      have : (k == k0) = false := by
        cases hx : (k == k0)
        · rfl
        · exact absurd (by rw [beq_iff_eq.mp hx]; exact beq_self_eq_true _ : (k0 == k) = true) h0
      rw [this] at h
      simp [ih h]

theorem getChild_setChildHash_ne (t : HashTree) (k k2 : String) (h : String)
    (hne : k2 ≠ k) : getChild (setChildHash t k h) k2 = getChild t k2 := by
  rw [setChildHash]
  cases hc : getChild t k with
  | none => rfl
  | some c =>
    simp only [setChild]
    show (assignChild (childrenOf t) k (.node h (childrenOf c))).lookup k2 = _
    rw [lookup_assignChild_ne _ _ _ _ hne]
    rfl

theorem getChild_setChildHash_self (t : HashTree) (k : String) (h : String) (c : HashTree)
    (hc : getChild t k = some c) :
    getChild (setChildHash t k h) k = some (.node h (childrenOf c)) := by
  rw [setChildHash, hc]
  simp only [setChild]
  show (assignChild (childrenOf t) k (.node h (childrenOf c))).lookup k = _
  rw [lookup_assignChild_self]

theorem setChildHash_keys (t : HashTree) (k : String) (h : String) :
    (childrenOf (setChildHash t k h)).map (fun kv => kv.1) =
      (childrenOf t).map (fun kv => kv.1) := by
  rw [setChildHash]
  cases hc : getChild t k with
  | none => rfl
  | some c =>
    simp only [setChild]
    show (assignChild (childrenOf t) k (.node h (childrenOf c))).map (fun kv => kv.1) = _
    refine assignChild_keys_present _ _ _ ?_
    show ((childrenOf t).lookup k).isSome = true
    rw [show (childrenOf t).lookup k = getChild t k from rfl, hc]
    rfl

theorem setChildHash_hash (t : HashTree) (k : String) (h : String) :
    hashOf (setChildHash t k h) = hashOf t := by
  rw [setChildHash]
  cases hc : getChild t k with
  | none => rfl
  | some c => rfl

/-- Expected notifications for a positional comparison of two equal-length
element lists starting at index i: one modified notification at each index
whose serialized element changed. -/
def modifiedEvents : List JValue → List JValue → Nat → List DifferenceEvent
  | [], _, _ => []
  | _ :: _, [], _ => []
  | o :: os, w :: ws, i =>
    (if serialize o = serialize w then [] else [⟨.modified, natToString i⟩]) ++
      modifiedEvents os ws (i + 1)

theorem pKV_leaf_step (rec : HashTree → JValue → String → UpdateResult)
    (t : HashTree) (vfull : List JValue) (i : Nat) (w o : JValue)
    (cs0 : List (String × HashTree))
    (hget : vfull.get? i = some w)
    (hleafy : (!(isObjLike w) || valueTruthyType w) = true)
    (hchild : getChild t (natToString i) = some (.node (calculateHash (serialize o)) cs0)) :
    processKeyValueGo rec t (.jarr vfull) (natToString i) (natToString i) =
      if serialize o = serialize w then .ok ⟨t, [], 1⟩
      else .ok ⟨setChildHash t (natToString i) (calculateHash (serialize w)),
        [⟨.modified, natToString i⟩], 1⟩ := by
  rw [processKeyValueGo]
  have hjget : jGet (.jarr vfull) (natToString i) = some w := by
    rw [jGet, if_pos (isIndexKey_natToString i), parseNat_natToString]
    exact hget
  rw [hjget]
  dsimp only
  have hcmp : (hashOf (HashTree.node (calculateHash (serialize o)) cs0) ==
      calculateHash (serialize w)) = if serialize o = serialize w then true else false := by
    by_cases hser : serialize o = serialize w
    · rw [if_pos hser, hser]
      exact beq_self_eq_true _
    · rw [if_neg hser]
      refine beq_eq_false_iff_ne.mpr ?_
      intro hc
      exact hser (calculateHash_inj _ _ hc)
  by_cases hobj : isObjLike w = true
  · have hty : valueTruthyType w = true := by
      rw [hobj] at hleafy
      simpa using hleafy
    rw [if_pos hobj, processObjectValueGo, if_pos hty, hchild]
    dsimp only
    by_cases hser : serialize o = serialize w
    · rw [if_pos hser] at hcmp ⊢
      rw [hcmp]
      simp
    · rw [if_neg hser] at hcmp ⊢
      rw [hcmp]
      simp
  · rw [if_neg hobj]
    rw [processPrimitiveValue, hchild]
    dsimp only
    by_cases hser : serialize o = serialize w
    · rw [if_pos hser] at hcmp ⊢
      rw [hcmp]
      simp
    · rw [if_neg hser] at hcmp ⊢
      rw [hcmp]
      simp

theorem pEK_leafy (vfull : List JValue) (rec : HashTree → JValue → String → UpdateResult) :
    ∀ (os ws : List JValue) (i : Nat) (bs : List HashTree) (t : HashTree),
      bs.length = os.length →
      vfull.drop i = ws →
      os.length = ws.length →
      ws.all (fun w => !(isObjLike w) || valueTruthyType w) = true →
      (∀ j, j < os.length → ∃ o cs, os.get? j = some o ∧
        getChild t (natToString (i + j)) = some (.node (calculateHash (serialize o)) cs)) →
      ∃ t2 n, processExistingKeysGo rec t ((indexPairs i bs).map (fun kv => kv.1))
          (.jarr vfull) "" = .ok ⟨t2, modifiedEvents os ws i, n⟩ ∧
        (childrenOf t2).map (fun kv => kv.1) = (childrenOf t).map (fun kv => kv.1) := by
  intro os
  induction os with
  | nil =>
    intro ws i bs t hbs _ _ _ _
    have hbnil : bs = [] := List.length_eq_zero.mp hbs
    subst hbnil
    exact ⟨t, 0, rfl, rfl⟩
  | cons o os2 ih =>
    intro ws i bs t hbs hdrop hlen hleafy hinv
    cases ws with
    | nil => simp at hlen
    | cons w ws2 =>
    cases bs with
    | nil => simp at hbs
    | cons b bs2 =>
    have hbs2 : bs2.length = os2.length := by simpa using hbs
    have hlen2 : os2.length = ws2.length := by simpa using hlen
    rw [List.all_cons] at hleafy
    simp only [Bool.and_eq_true] at hleafy
    obtain ⟨hleafyh, hleafy2⟩ := hleafy
    have hi_lt : i < vfull.length := by
      have := congrArg List.length hdrop
      rw [List.length_drop] at this
      simp at this
      omega
    have hget_w : vfull.get? i = some w := by
      have h0 : (vfull.drop i).get? 0 = some w := by rw [hdrop]; rfl
      rw [List.get?_eq_getElem?, List.getElem?_drop] at h0
      rw [List.get?_eq_getElem?]
      simpa using h0
    have hdrop2 : vfull.drop (i + 1) = ws2 := by
      have h1 : List.drop 1 (vfull.drop i) = ws2 := by rw [hdrop]; rfl
      rwa [List.drop_drop] at h1
    obtain ⟨o0, cs0, hgeto, hchild0⟩ := hinv 0 (by simp)
    have ho0 : o0 = o := by
      have h2 : some o = some o0 := hgeto
      exact (Option.some.inj h2).symm
    rw [ho0] at hchild0
    rw [Nat.add_zero] at hchild0
    rw [indexPairs, List.map_cons, processExistingKeysGo]
    dsimp only
    rw [joinPath_empty]
    rw [if_neg (by simp [isObjLike])]
    have hkin : keyInValue (.jarr vfull) (natToString i) = true := by
      rw [keyInValue, isIndexKey_natToString, parseNat_natToString]
      simp [hi_lt]
    rw [hkin]
    simp only [Bool.not_true, Bool.false_eq_true, if_false]
    rw [pKV_leaf_step rec t vfull i w o cs0 hget_w hleafyh hchild0]
    by_cases hser : serialize o = serialize w
    · rw [if_pos hser]
      dsimp only
      have hinv2 : ∀ j, j < os2.length → ∃ o2 cs2, os2.get? j = some o2 ∧
          getChild t (natToString (i + 1 + j)) =
            some (.node (calculateHash (serialize o2)) cs2) := by
        intro j hj
        obtain ⟨o2, cs2, hg, hc⟩ := hinv (j + 1) (by simpa using Nat.succ_lt_succ hj)
        refine ⟨o2, cs2, by simpa using hg, ?_⟩
        rw [show i + 1 + j = i + (j + 1) from by omega]
        exact hc
      obtain ⟨t2, n, hpek2, hkeys2⟩ := ih (ws2) (i + 1) bs2 t hbs2 hdrop2 hlen2 hleafy2 hinv2
      rw [hpek2]
      dsimp only
      refine ⟨t2, 1 + n, ?_, hkeys2⟩
      rw [modifiedEvents, if_pos hser]
    · rw [if_neg hser]
      dsimp only
      have hinv2 : ∀ j, j < os2.length → ∃ o2 cs2, os2.get? j = some o2 ∧
          getChild (setChildHash t (natToString i) (calculateHash (serialize w)))
            (natToString (i + 1 + j)) =
            some (.node (calculateHash (serialize o2)) cs2) := by
        intro j hj
        obtain ⟨o2, cs2, hg, hc⟩ := hinv (j + 1) (by simpa using Nat.succ_lt_succ hj)
        refine ⟨o2, cs2, by simpa using hg, ?_⟩
        rw [getChild_setChildHash_ne _ _ _ _ (by
          intro hc2
          have := natToString_inj _ _ hc2
          omega)]
        rw [show i + 1 + j = i + (j + 1) from by omega]
        exact hc
      obtain ⟨t2, n, hpek2, hkeys2⟩ := ih ws2 (i + 1) bs2
        (setChildHash t (natToString i) (calculateHash (serialize w)))
        hbs2 hdrop2 hlen2 hleafy2 hinv2
      rw [hpek2]
      dsimp only
      refine ⟨t2, 1 + n, ?_, ?_⟩
      · rw [modifiedEvents, if_neg hser]
      · rw [hkeys2, setChildHash_keys]

theorem pAK_all_present (v : JValue) (path : String) :
    ∀ (keys : List String) (t : HashTree),
      (∀ k ∈ keys, keyInTree t k = true) →
      processAddedKeysGo t keys v path = (t, [], 0) := by
  intro keys
  induction keys with
  | nil => intro t _; rfl
  | cons k rest ih =>
    intro t hall
    rw [processAddedKeysGo, hall k (List.mem_cons_self _ _)]
    exact ih t (fun k2 h2 => hall k2 (List.mem_cons_of_mem _ h2))

theorem hasChildKey_of_mem (t : HashTree) (k : String)
    (h : k ∈ (childrenOf t).map (fun kv => kv.1)) : hasChildKey t k = true := by
  rw [hasChildKey]
  obtain ⟨kv, hkv, heq⟩ := List.mem_map.mp h
  exact List.any_eq_true.mpr ⟨kv, hkv, by rw [heq]; exact beq_self_eq_true _⟩

theorem indexPairs_key_mem {α : Type} (l : List α) :
    ∀ (i j : Nat), j < l.length →
      natToString (i + j) ∈ (indexPairs i l).map (fun kv => kv.1) := by
  induction l with
  | nil => intro i j h; simp at h
  | cons x xs ih =>
    intro i j h
    rw [indexPairs, List.map_cons]
    cases j with
    | zero => rw [Nat.add_zero]; exact List.mem_cons_self _ _
    | succ j2 =>
      have := ih (i + 1) j2 (by simpa using h)
      rw [show i + 1 + j2 = i + (j2 + 1) from by omega] at this
      exact List.mem_cons_of_mem _ this

/-- C7, amended.  Arrays are compared positionally under stringified index
keys: for equal-length snapshots whose elements are all primitive or opaque
(truthy type), update emits exactly one modified notification at each index
whose serialized element changed — in particular a reordering of such elements
is reported as modified at the affected index paths, never matched by content.
(Reordered plain-object elements are instead diffed by recursion, producing
removed/added notifications at paths underneath the affected indices, as the
counterexample shows.) -/
theorem c7_leafy_array_positional (oldElems newElems : List JValue)
    (hlen : oldElems.length = newElems.length)
    (hold : oldElems.all (fun v => !(isObjLike v) || valueTruthyType v) = true)
    (hnew : newElems.all (fun v => !(isObjLike v) || valueTruthyType v) = true)
    (hroot : hashOf (buildHashTree (.jarr oldElems)) ≠
      calculateHash (serialize (.jarr newElems))) :
    ∃ t2 n, detectChanges (initHashTree (.jarr oldElems)) (.jarr newElems) =
      .ok ⟨t2, modifiedEvents oldElems newElems 0, n⟩ := by
  have ht0 : buildHashTree (.jarr oldElems) =
      .node (calculateHash (joinSep "" ((buildHashTreeList oldElems).map hashOf)))
        (indexPairs 0 (buildHashTreeList oldElems)) := by
    simp only [buildHashTree]
  have hbslen : (buildHashTreeList oldElems).length = oldElems.length := by
    rw [buildHashTreeList_eq_map, List.length_map]
  have hinv : ∀ j, j < oldElems.length → ∃ o cs, oldElems.get? j = some o ∧
      getChild (buildHashTree (.jarr oldElems)) (natToString (0 + j)) =
        some (.node (calculateHash (serialize o)) cs) := by
    intro j hj
    have hgetj : oldElems.get? j = some (oldElems.get ⟨j, hj⟩) := List.get?_eq_get hj
    have hleafyj : (!(isObjLike (oldElems.get ⟨j, hj⟩)) ||
        valueTruthyType (oldElems.get ⟨j, hj⟩)) = true :=
      List.all_eq_true.mp hold _ (List.get_mem _ _ _)
    obtain ⟨cs, hbuild⟩ := leafy_build_hash _ hleafyj
    refine ⟨oldElems.get ⟨j, hj⟩, cs, hgetj, ?_⟩
    rw [ht0]
    show (indexPairs 0 (buildHashTreeList oldElems)).lookup (natToString (0 + j)) = _
    rw [indexPairs_lookup _ 0 j (by rwa [hbslen])]
    rw [buildHashTreeList_eq_map, getq_map, hgetj, Option.map_some', hbuild]
  obtain ⟨t2, n, hpek, hkeys⟩ := pEK_leafy newElems
    (findDifferencesAndUpdateF (jvSize (.jarr newElems)))
    oldElems newElems 0 (buildHashTreeList oldElems) (buildHashTree (.jarr oldElems))
    hbslen (List.drop_zero _) hlen hnew hinv
  refine ⟨recomputeDigest t2, 1 + n + 0 + 1, ?_⟩
  unfold detectChanges initHashTree
  rw [findDifferencesAndUpdateF]
  rw [beq_eq_false_iff_ne.mpr hroot]
  simp only [Bool.false_eq_true, if_false]
  have hchildren : childrenOf (buildHashTree (.jarr oldElems)) =
      indexPairs 0 (buildHashTreeList oldElems) := by
    rw [ht0]
    rfl
  rw [hchildren, jsOrderPairs_indexPairs]
  rw [hpek]
  dsimp only
  have hkeys0 : (childrenOf (buildHashTree (.jarr oldElems))).map (fun kv => kv.1) =
      (indexPairs 0 (buildHashTreeList oldElems)).map (fun kv => kv.1) := by
    rw [hchildren]
  have hpresent : ∀ k ∈ enumValueKeys (.jarr newElems), keyInTree t2 k = true := by
    intro k hk
    rw [enumValueKeys] at hk
    obtain ⟨i, hi, heq⟩ := List.mem_map.mp hk
    have hhc : hasChildKey t2 k = true := by
      refine hasChildKey_of_mem t2 k ?_
      rw [hkeys, hkeys0]
      rw [← heq]
      have hilt : i < (buildHashTreeList oldElems).length := by
        rw [hbslen, hlen]
        exact List.mem_range.mp hi
      have hm := indexPairs_key_mem (buildHashTreeList oldElems) 0 i hilt
      rwa [Nat.zero_add] at hm
    simp [keyInTree, hhc]
  rw [pAK_all_present _ _ _ _ hpresent]
  dsimp only
  rw [List.append_nil]

/-- C7, witness: swapping the primitive elements of [1,2] emits modified at
indices 0 and 1. -/
theorem c7_leafy_array_positional_witness :
    ∃ t2 n, detectChanges (initHashTree (.jarr [.jnum 1, .jnum 2])) (.jarr [.jnum 2, .jnum 1]) =
      .ok ⟨t2, modifiedEvents [.jnum 1, .jnum 2] [.jnum 2, .jnum 1] 0, n⟩ :=
  c7_leafy_array_positional [.jnum 1, .jnum 2] [.jnum 2, .jnum 1]
    rfl (by decide) (by decide) (by decide)

/-- A tree that update leaves untouched for the snapshot x: the call returns
the same tree and emits nothing, at every sufficient fuel and any path. -/
def fixedTree (t : HashTree) (x : JValue) : Prop :=
  ∀ fuel path, jvSize x < fuel → ∃ n, findDifferencesAndUpdateF fuel t x path = .ok ⟨t, [], n⟩

/-- A child of the snapshot v under key k whose processing leaves any tree
carrying it untouched and emits nothing. -/
def childStable (v : JValue) (k : String) (c : HashTree) (bound : Nat) : Prop :=
  ∀ fuel path t, bound < fuel → getChild t k = some c →
    ∃ n, processKeyValueGo (findDifferencesAndUpdateF fuel) t v k path = .ok ⟨t, [], n⟩

/-- A child of the snapshot v under key k whose processing rewrites it to the
fixed node c2 (emitting nothing) in any tree carrying it. -/
def childBuildStep (v : JValue) (k : String) (c c2 : HashTree) (bound : Nat) : Prop :=
  ∀ fuel path t, bound < fuel → getChild t k = some c →
    ∃ n, processKeyValueGo (findDifferencesAndUpdateF fuel) t v k path =
      .ok ⟨setChild t k c2, [], n⟩

theorem assignChild_same (cs : List (String × HashTree)) (k : String) (c : HashTree)
    (h : cs.lookup k = some c) : assignChild cs k c = cs := by
  induction cs with
  | nil => simp [List.lookup] at h
  | cons kv rest ih =>
    obtain ⟨k0, c0⟩ := kv
    rw [List.lookup] at h
    rw [assignChild]
    by_cases h0 : (k0 == k) = true
    · rw [if_pos h0]
      have hk0 : k0 = k := beq_iff_eq.mp h0
      subst hk0
      rw [beq_self_eq_true] at h
      have : c0 = c := Option.some.inj h
      rw [this]
    · rw [if_neg h0]
      have : (k == k0) = false := by
        cases hx : (k == k0)
        · rfl
        · exact absurd (by rw [beq_iff_eq.mp hx]; exact beq_self_eq_true _ : (k0 == k) = true) h0
      rw [this] at h
      rw [ih h]

theorem setChild_same (t : HashTree) (k : String) (c : HashTree)
    (h : getChild t k = some c) : setChild t k c = t := by
  cases t with
  | node hh cs =>
    simp only [setChild, childrenOf, hashOf]
    rw [assignChild_same cs k c h]

theorem getChild_setChild_ne (t : HashTree) (k k2 : String) (c : HashTree)
    (hne : k2 ≠ k) : getChild (setChild t k c) k2 = getChild t k2 := by
  show (assignChild (childrenOf t) k c).lookup k2 = _
  rw [lookup_assignChild_ne _ _ _ _ hne]
  rfl

theorem getChild_setChild_self (t : HashTree) (k : String) (c : HashTree) :
    getChild (setChild t k c) k = some c := by
  show (assignChild (childrenOf t) k c).lookup k = _
  rw [lookup_assignChild_self]

theorem pEK_stable (v : JValue) (hv : isObjLike v = true) (bound : Nat) :
    ∀ (keys : List String) (t : HashTree) (fuel : Nat) (path : String),
      bound < fuel →
      (∀ k ∈ keys, keyInValue v k = true) →
      (∀ k ∈ keys, ∃ c, getChild t k = some c ∧ childStable v k c bound) →
      ∃ n, processExistingKeysGo (findDifferencesAndUpdateF fuel) t keys v path =
        .ok ⟨t, [], n⟩ := by
  intro keys
  induction keys with
  | nil => intro t fuel path _ _ _; exact ⟨0, rfl⟩
  | cons k rest ih =>
    intro t fuel path hfuel hkin hsteps
    obtain ⟨c, hget, hstable⟩ := hsteps k (List.mem_cons_self _ _)
    obtain ⟨n1, hstep⟩ := hstable fuel (joinPath path k) t hfuel hget
    rw [processExistingKeysGo]
    rw [if_neg (by simp [hv])]
    rw [hkin k (List.mem_cons_self _ _)]
    simp only [Bool.not_true, Bool.false_eq_true, if_false]
    rw [hstep]
    dsimp only
    obtain ⟨n2, hrest⟩ := ih t fuel path hfuel
      (fun k2 h2 => hkin k2 (List.mem_cons_of_mem _ h2))
      (fun k2 h2 => hsteps k2 (List.mem_cons_of_mem _ h2))
    rw [hrest]
    exact ⟨n1 + n2, rfl⟩

theorem pEK_build_steps (v : JValue) (hv : isObjLike v = true) (bound : Nat)
    (c2f : String → HashTree) :
    ∀ (keys : List String) (t : HashTree) (fuel : Nat) (path : String),
      bound < fuel →
      keys.Nodup →
      (∀ k ∈ keys, keyInValue v k = true) →
      (∀ k ∈ keys, ∃ c, getChild t k = some c ∧ childBuildStep v k c (c2f k) bound ∧
        childStable v k (c2f k) bound) →
      ∃ n, processExistingKeysGo (findDifferencesAndUpdateF fuel) t keys v path =
          .ok ⟨keys.foldl (fun t2 k => setChild t2 k (c2f k)) t, [], n⟩ ∧
        (childrenOf (keys.foldl (fun t2 k => setChild t2 k (c2f k)) t)).map (fun kv => kv.1) =
          (childrenOf t).map (fun kv => kv.1) ∧
        (∀ k ∈ keys, getChild (keys.foldl (fun t2 k => setChild t2 k (c2f k)) t) k =
          some (c2f k)) ∧
        (∀ k2, k2 ∉ keys →
          getChild (keys.foldl (fun t2 k => setChild t2 k (c2f k)) t) k2 = getChild t k2) := by
  intro keys
  induction keys with
  | nil =>
    intro t fuel path _ _ _ _
    exact ⟨0, rfl, rfl, fun k h => absurd h (List.not_mem_nil k), fun k2 _ => rfl⟩
  | cons k rest ih =>
    intro t fuel path hfuel hnd hkin hsteps
    rw [List.nodup_cons] at hnd
    obtain ⟨hknotin, hndrest⟩ := hnd
    obtain ⟨c, hget, hbuild, hstable⟩ := hsteps k (List.mem_cons_self _ _)
    obtain ⟨n1, hstep⟩ := hbuild fuel (joinPath path k) t hfuel hget
    rw [processExistingKeysGo]
    rw [if_neg (by simp [hv])]
    rw [hkin k (List.mem_cons_self _ _)]
    simp only [Bool.not_true, Bool.false_eq_true, if_false]
    rw [hstep]
    dsimp only
    have hkeyspres : (childrenOf (setChild t k (c2f k))).map (fun kv => kv.1) =
        (childrenOf t).map (fun kv => kv.1) := by
      show (assignChild (childrenOf t) k (c2f k)).map (fun kv => kv.1) = _
      refine assignChild_keys_present _ _ _ ?_
      show ((childrenOf t).lookup k).isSome = true
      rw [show (childrenOf t).lookup k = getChild t k from rfl, hget]
      rfl
    obtain ⟨n2, hrest, hkeys2, hsome2, hother2⟩ := ih (setChild t k (c2f k)) fuel path hfuel
      hndrest
      (fun k2 h2 => hkin k2 (List.mem_cons_of_mem _ h2))
      (fun k2 h2 => by
        obtain ⟨c', hget', hbuild', hstable'⟩ := hsteps k2 (List.mem_cons_of_mem _ h2)
        have hne : k2 ≠ k := by
          intro hc
          rw [hc] at h2
          exact hknotin h2
        refine ⟨c', ?_, hbuild', hstable'⟩
        rw [getChild_setChild_ne t k k2 (c2f k) hne]
        exact hget')
    rw [List.foldl_cons]
    rw [hrest]
    refine ⟨n1 + n2, rfl, by rw [hkeys2, hkeyspres], ?_, ?_⟩
    · intro k2 h2
      rcases List.mem_cons.mp h2 with h2 | h2
      · subst h2
        rw [hother2 k2 hknotin]
        exact getChild_setChild_self t k2 (c2f k2)
      · exact hsome2 k2 h2
    · intro k2 h2
      have hne : k2 ≠ k := fun hc => h2 (by rw [hc]; exact List.mem_cons_self _ _)
      rw [hother2 k2 (fun hc => h2 (List.mem_cons_of_mem _ hc))]
      exact getChild_setChild_ne t k k2 (c2f k) hne

theorem child_steps_establish (v : JValue) (k : String) (x : JValue) (bound : Nat)
    (hget : jGet v k = some x) (hbound : jvSize x ≤ bound)
    (hP : wfValue x = true →
      ∃ t1, (∀ fuel path, jvSize x < fuel →
          ∃ n, findDifferencesAndUpdateF fuel (buildHashTree x) x path = .ok ⟨t1, [], n⟩) ∧
        fixedTree t1 x)
    (hwfx : wfValue x = true) :
    ∃ c2, childBuildStep v k (buildHashTree x) c2 bound ∧ childStable v k c2 bound := by
  by_cases hobj : isObjLike x = true
  · by_cases hty : valueTruthyType x = true
    · -- opaque leaf: digest comparison succeeds, nothing changes
      obtain ⟨cs, hbx⟩ := leafy_build_hash x (by simp [hobj, hty])
      have hstable : childStable v k (buildHashTree x) bound := by
        intro fuel path t hfuel hgetc
        rw [processKeyValueGo, hget]
        dsimp only
        rw [if_pos hobj, processObjectValueGo, if_pos hty]
        rw [hbx] at hgetc
        rw [hgetc]
        dsimp only [hashOf]
        rw [beq_self_eq_true]
        exact ⟨1, rfl⟩
      refine ⟨buildHashTree x, ?_, hstable⟩
      intro fuel path t hfuel hgetc
      obtain ⟨n, hs⟩ := hstable fuel path t hfuel hgetc
      rw [setChild_same t k _ hgetc]
      exact ⟨n, hs⟩
    · -- structural child: recurse with the build result, then its fixed point
      obtain ⟨t1, hfirst, hfix⟩ := hP hwfx
      refine ⟨t1, ?_, ?_⟩
      · intro fuel path t hfuel hgetc
        obtain ⟨n, hrec⟩ := hfirst fuel path (by omega)
        rw [processKeyValueGo, hget]
        dsimp only
        rw [if_pos hobj, processObjectValueGo, if_neg (by simp [hty])]
        rw [hgetc]
        dsimp only [Option.getD]
        rw [hrec]
        exact ⟨n, rfl⟩
      · intro fuel path t hfuel hgetc
        obtain ⟨n, hrec⟩ := hfix fuel path (by omega)
        rw [processKeyValueGo, hget]
        dsimp only
        rw [if_pos hobj, processObjectValueGo, if_neg (by simp [hty])]
        rw [hgetc]
        dsimp only [Option.getD]
        rw [hrec]
        dsimp only
        rw [setChild_same t k t1 hgetc]
        exact ⟨n, rfl⟩
  · -- primitive child: digest comparison succeeds, nothing changes
    obtain ⟨cs, hbx⟩ := leafy_build_hash x (by simp [hobj])
    have hstable : childStable v k (buildHashTree x) bound := by
      intro fuel path t hfuel hgetc
      rw [processKeyValueGo, hget]
      dsimp only
      rw [if_neg hobj, processPrimitiveValue]
      rw [hbx] at hgetc
      rw [hgetc]
      dsimp only [hashOf]
      rw [beq_self_eq_true]
      exact ⟨1, rfl⟩
    refine ⟨buildHashTree x, ?_, hstable⟩
    intro fuel path t hfuel hgetc
    obtain ⟨n, hs⟩ := hstable fuel path t hfuel hgetc
    rw [setChild_same t k _ hgetc]
    exact ⟨n, hs⟩

theorem jvSizeList_mem (l : List JValue) (x : JValue) (h : x ∈ l) :
    jvSize x ≤ jvSizeList l := by
  induction l with
  | nil => simp at h
  | cons y ys ih =>
    rw [jvSizeList]
    rcases List.mem_cons.mp h with h | h
    · subst h; omega
    · have := ih h; omega

theorem jvSizeFields_mem (fl : List (String × JValue)) (k : String) (x : JValue)
    (h : (k, x) ∈ fl) : jvSize x ≤ jvSizeFields fl := by
  induction fl with
  | nil => simp at h
  | cons kv rest ih =>
    obtain ⟨k0, x0⟩ := kv
    rw [jvSizeFields]
    rcases List.mem_cons.mp h with h | h
    · have : x = x0 := (Prod.mk.injEq _ _ _ _ ▸ h).2
      subst this; omega
    · have := ih h; omega

theorem wfValueList_mem (l : List JValue) (hwf : wfValueList l = true) (x : JValue)
    (h : x ∈ l) : wfValue x = true := by
  induction l with
  | nil => simp at h
  | cons y ys ih =>
    rw [wfValueList, Bool.and_eq_true] at hwf
    rcases List.mem_cons.mp h with h | h
    · subst h; exact hwf.1
    · exact ih hwf.2 h

theorem wfValueFields_mem (fl : List (String × JValue)) (hwf : wfValueFields fl = true)
    (k : String) (x : JValue) (h : (k, x) ∈ fl) : wfValue x = true := by
  induction fl with
  | nil => simp at h
  | cons kv rest ih =>
    obtain ⟨k0, x0⟩ := kv
    rw [wfValueFields, Bool.and_eq_true] at hwf
    rcases List.mem_cons.mp h with h | h
    · have : x = x0 := (Prod.mk.injEq _ _ _ _ ▸ h).2
      subst this; exact hwf.1
    · exact ih hwf.2 h

theorem indexPairs_mem_key {α : Type} (l : List α) :
    ∀ (i : Nat) (k : String), k ∈ (indexPairs i l).map (fun kv => kv.1) →
      ∃ j, j < l.length ∧ k = natToString (i + j) := by
  induction l with
  | nil => intro i k h; simp [indexPairs] at h
  | cons x xs ih =>
    intro i k h
    rw [indexPairs, List.map_cons] at h
    rcases List.mem_cons.mp h with h | h
    · exact ⟨0, by simp, by rw [h, Nat.add_zero]⟩
    · obtain ⟨j, hj, hk⟩ := ih (i + 1) k h
      exact ⟨j + 1, by simp; omega, by rw [hk]; congr 1; omega⟩

theorem indexPairs_keys_nodup {α : Type} (l : List α) :
    ∀ i, ((indexPairs i l).map (fun kv => kv.1)).Nodup := by
  induction l with
  | nil => intro i; simp [indexPairs]
  | cons x xs ih =>
    intro i
    rw [indexPairs, List.map_cons, List.nodup_cons]
    refine ⟨?_, ih (i + 1)⟩
    intro hmem
    obtain ⟨j, _, hk⟩ := indexPairs_mem_key xs (i + 1) (natToString i) hmem
    have := natToString_inj _ _ hk
    omega

theorem buildFields_mem_inv (fl : List (String × JValue)) (kv : String × HashTree)
    (h : kv ∈ buildHashTreeFields fl) :
    ∃ x, (kv.1, x) ∈ fl ∧ kv.2 = buildHashTree x := by
  induction fl with
  | nil => simp [buildHashTreeFields] at h
  | cons kx rest ih =>
    obtain ⟨k0, x0⟩ := kx
    rw [buildHashTreeFields] at h
    rcases List.mem_cons.mp h with h | h
    · subst h
      exact ⟨x0, List.mem_cons_self _ _, rfl⟩
    · obtain ⟨x, hm, hb⟩ := ih h
      exact ⟨x, List.mem_cons_of_mem _ hm, hb⟩

theorem recomputeDigest_children (t : HashTree) :
    childrenOf (recomputeDigest t) = childrenOf t := rfl

theorem recomputeDigest_idem (t : HashTree) :
    recomputeDigest (recomputeDigest t) = recomputeDigest t := rfl

theorem getChild_recomputeDigest (t : HashTree) (k : String) :
    getChild (recomputeDigest t) k = getChild t k := rfl

theorem leafy_fixed_pair (x : JValue) (h : (!(isObjLike x) || valueTruthyType x) = true) :
    (∀ fuel path, jvSize x < fuel →
        ∃ n, findDifferencesAndUpdateF fuel (buildHashTree x) x path =
          .ok ⟨buildHashTree x, [], n⟩) ∧
      fixedTree (buildHashTree x) x := by
  obtain ⟨cs, hbx⟩ := leafy_build_hash x h
  have key : ∀ fuel path, jvSize x < fuel →
      ∃ n, findDifferencesAndUpdateF fuel (buildHashTree x) x path =
        .ok ⟨buildHashTree x, [], n⟩ := by
    intro fuel path hf
    cases fuel with
    | zero => omega
    | succ m =>
      rw [findDifferencesAndUpdateF, hbx]
      dsimp only [hashOf]
      rw [beq_self_eq_true]
      exact ⟨1, rfl⟩
  exact ⟨key, key⟩

theorem build_fixed_of_pass (x : JValue) (hobj : isObjLike x = true) (bound : Nat)
    (hsize : jvSize x = bound + 1)
    (hsc : ¬((hashOf (buildHashTree x) == calculateHash (serialize x)) = true))
    (tmid : HashTree)
    (hpekF : ∀ fuel path, bound < fuel →
      ∃ n, processExistingKeysGo (findDifferencesAndUpdateF fuel) (buildHashTree x)
          ((jsOrderPairs (childrenOf (buildHashTree x))).map (fun kv => kv.1)) x path =
        .ok ⟨tmid, [], n⟩)
    (hkeys : (childrenOf tmid).map (fun kv => kv.1) =
      (childrenOf (buildHashTree x)).map (fun kv => kv.1))
    (hkin : ∀ k ∈ (childrenOf (buildHashTree x)).map (fun kv => kv.1), keyInValue x k = true)
    (hstable : ∀ k ∈ (childrenOf (buildHashTree x)).map (fun kv => kv.1),
      ∃ c, getChild tmid k = some c ∧ childStable x k c bound)
    (henum : ∀ k ∈ enumValueKeys x, k ∈ (childrenOf (buildHashTree x)).map (fun kv => kv.1)) :
    ∃ t1, (∀ fuel path, jvSize x < fuel →
        ∃ n, findDifferencesAndUpdateF fuel (buildHashTree x) x path = .ok ⟨t1, [], n⟩) ∧
      fixedTree t1 x := by
  have hpakMid : ∀ path, processAddedKeysGo tmid (enumValueKeys x) x path = (tmid, [], 0) := by
    intro path
    refine pAK_all_present x path (enumValueKeys x) tmid ?_
    intro k hk
    rw [keyInTree, hasChildKey_of_mem tmid k (by rw [hkeys]; exact henum k hk)]
    simp
  refine ⟨recomputeDigest tmid, ?_, ?_⟩
  · intro fuel path hf
    cases fuel with
    | zero => omega
    | succ m =>
      have hbm : bound < m := by omega
      obtain ⟨n, hpek⟩ := hpekF m path hbm
      rw [findDifferencesAndUpdateF]
      dsimp only
      rw [if_neg hsc, hpek]
      dsimp only
      rw [hpakMid path]
      exact ⟨1 + n + 0 + 1, rfl⟩
  · intro fuel path hf
    cases fuel with
    | zero => omega
    | succ m =>
      have hbm : bound < m := by omega
      by_cases hsc2 : (hashOf (recomputeDigest tmid) == calculateHash (serialize x)) = true
      · rw [findDifferencesAndUpdateF]
        dsimp only
        rw [if_pos hsc2]
        exact ⟨1, rfl⟩
      · have hmem2 : ∀ k,
            k ∈ (jsOrderPairs (childrenOf (recomputeDigest tmid))).map (fun kv => kv.1) →
            k ∈ (childrenOf (buildHashTree x)).map (fun kv => kv.1) := by
          intro k hk
          rw [recomputeDigest_children] at hk
          have := ((jsOrderPairs_perm (childrenOf tmid)).map (fun kv => kv.1)).mem_iff.mp hk
          rw [hkeys] at this
          exact this
        obtain ⟨n2, hpek2⟩ := pEK_stable x hobj bound
          ((jsOrderPairs (childrenOf (recomputeDigest tmid))).map (fun kv => kv.1))
          (recomputeDigest tmid) m path hbm
          (fun k hk => hkin k (hmem2 k hk))
          (fun k hk => by
            obtain ⟨c, hg, hs⟩ := hstable k (hmem2 k hk)
            exact ⟨c, by rw [getChild_recomputeDigest]; exact hg, hs⟩)
        rw [findDifferencesAndUpdateF]
        dsimp only
        rw [if_neg hsc2, hpek2]
        dsimp only
        have hpak2 : processAddedKeysGo (recomputeDigest tmid) (enumValueKeys x) x path =
            (recomputeDigest tmid, [], 0) := by
          refine pAK_all_present x path (enumValueKeys x) (recomputeDigest tmid) ?_
          intro k hk
          rw [keyInTree, hasChildKey_of_mem (recomputeDigest tmid) k
            (by rw [recomputeDigest_children, hkeys]; exact henum k hk)]
          simp
        rw [hpak2]
        dsimp only
        rw [recomputeDigest_idem]
        exact ⟨1 + n2 + 0 + 1, rfl⟩

theorem build_fixed_structural (x : JValue) (hobj : isObjLike x = true) (bound : Nat)
    (hsize : jvSize x = bound + 1)
    (hnodupK : ((childrenOf (buildHashTree x)).map (fun kv => kv.1)).Nodup)
    (hkin : ∀ k ∈ (childrenOf (buildHashTree x)).map (fun kv => kv.1), keyInValue x k = true)
    (hsteps : ∀ k, ∃ c2, k ∈ (childrenOf (buildHashTree x)).map (fun kv => kv.1) →
      ∃ c, getChild (buildHashTree x) k = some c ∧ childBuildStep x k c c2 bound ∧
        childStable x k c2 bound)
    (henum : ∀ k ∈ enumValueKeys x, k ∈ (childrenOf (buildHashTree x)).map (fun kv => kv.1)) :
    ∃ t1, (∀ fuel path, jvSize x < fuel →
        ∃ n, findDifferencesAndUpdateF fuel (buildHashTree x) x path = .ok ⟨t1, [], n⟩) ∧
      fixedTree t1 x := by
  by_cases hsc : (hashOf (buildHashTree x) == calculateHash (serialize x)) = true
  · have key : ∀ fuel path, jvSize x < fuel →
        ∃ n, findDifferencesAndUpdateF fuel (buildHashTree x) x path =
          .ok ⟨buildHashTree x, [], n⟩ := by
      intro fuel path hf
      cases fuel with
      | zero => omega
      | succ m =>
        rw [findDifferencesAndUpdateF]
        dsimp only
        rw [if_pos hsc]
        exact ⟨1, rfl⟩
    exact ⟨buildHashTree x, key, key⟩
  · choose c2f hc2f using hsteps
    have hmemT : ∀ k,
        k ∈ (jsOrderPairs (childrenOf (buildHashTree x))).map (fun kv => kv.1) →
        k ∈ (childrenOf (buildHashTree x)).map (fun kv => kv.1) :=
      fun k hk =>
        ((jsOrderPairs_perm (childrenOf (buildHashTree x))).map (fun kv => kv.1)).mem_iff.mp hk
    have hmemT2 : ∀ k,
        k ∈ (childrenOf (buildHashTree x)).map (fun kv => kv.1) →
        k ∈ (jsOrderPairs (childrenOf (buildHashTree x))).map (fun kv => kv.1) :=
      fun k hk =>
        ((jsOrderPairs_perm (childrenOf (buildHashTree x))).map (fun kv => kv.1)).mem_iff.mpr hk
    have hndT : ((jsOrderPairs (childrenOf (buildHashTree x))).map (fun kv => kv.1)).Nodup :=
      (((jsOrderPairs_perm (childrenOf (buildHashTree x))).map (fun kv => kv.1)).nodup_iff).mpr
        hnodupK
    obtain ⟨n0, _, hkeys, hsome, _⟩ := pEK_build_steps x hobj bound c2f
      ((jsOrderPairs (childrenOf (buildHashTree x))).map (fun kv => kv.1))
      (buildHashTree x) (bound + 1) "" (by omega) hndT
      (fun k hk => hkin k (hmemT k hk))
      (fun k hk => hc2f k (hmemT k hk))
    refine build_fixed_of_pass x hobj bound hsize hsc
      (((jsOrderPairs (childrenOf (buildHashTree x))).map (fun kv => kv.1)).foldl
        (fun t2 k => setChild t2 k (c2f k)) (buildHashTree x)) ?_ hkeys hkin ?_ henum
    · intro fuel path hfuel
      obtain ⟨n, hpek, _, _, _⟩ := pEK_build_steps x hobj bound c2f
        ((jsOrderPairs (childrenOf (buildHashTree x))).map (fun kv => kv.1))
        (buildHashTree x) fuel path hfuel hndT
        (fun k hk => hkin k (hmemT k hk))
        (fun k hk => hc2f k (hmemT k hk))
      exact ⟨n, hpek⟩
    · intro k hk
      obtain ⟨c, _, _, hstab⟩ := hc2f k hk
      exact ⟨c2f k, hsome k (hmemT2 k hk), hstab⟩

/-- The update pass applied to a freshly built tree for v reaches, with any
sufficient fuel, one and the same tree with no events; that tree is a fixed
point of further updates with v. -/
def buildStabilizes (x : JValue) : Prop :=
  ∃ t1, (∀ fuel path, jvSize x < fuel →
      ∃ n, findDifferencesAndUpdateF fuel (buildHashTree x) x path = .ok ⟨t1, [], n⟩) ∧
    fixedTree t1 x

theorem build_fixed_arr (elems : List JValue)
    (hQ : ∀ x ∈ elems, wfValue x = true → buildStabilizes x)
    (hwf : wfValue (.jarr elems) = true) : buildStabilizes (.jarr elems) := by
  have hwfl : wfValueList elems = true := hwf
  have hch : childrenOf (buildHashTree (.jarr elems)) =
      indexPairs 0 (buildHashTreeList elems) := rfl
  have hlen : (buildHashTreeList elems).length = elems.length := by
    rw [buildHashTreeList_eq_map, List.length_map]
  have hnodupK : ((childrenOf (buildHashTree (.jarr elems))).map (fun kv => kv.1)).Nodup := by
    rw [hch]
    exact indexPairs_keys_nodup (buildHashTreeList elems) 0
  have hkin : ∀ k ∈ (childrenOf (buildHashTree (.jarr elems))).map (fun kv => kv.1),
      keyInValue (.jarr elems) k = true := by
    intro k hk
    rw [hch] at hk
    obtain ⟨j, hjb, hkj⟩ := indexPairs_mem_key (buildHashTreeList elems) 0 k hk
    have hj : j < elems.length := by rw [hlen] at hjb; exact hjb
    rw [Nat.zero_add] at hkj
    subst hkj
    simp [keyInValue, isIndexKey_natToString, parseNat_natToString, hj]
  have hsteps : ∀ k, ∃ c2,
      k ∈ (childrenOf (buildHashTree (.jarr elems))).map (fun kv => kv.1) →
      ∃ c, getChild (buildHashTree (.jarr elems)) k = some c ∧
        childBuildStep (.jarr elems) k c c2 (jvSizeList elems) ∧
        childStable (.jarr elems) k c2 (jvSizeList elems) := by
    intro k
    by_cases hk : k ∈ (childrenOf (buildHashTree (.jarr elems))).map (fun kv => kv.1)
    · have hk2 := hk
      rw [hch] at hk2
      obtain ⟨j, hjb, hkj⟩ := indexPairs_mem_key (buildHashTreeList elems) 0 k hk2
      have hj : j < elems.length := by rw [hlen] at hjb; exact hjb
      rw [Nat.zero_add] at hkj
      obtain ⟨x, hje, hmem⟩ := getq_lt elems j hj
      have hget : jGet (.jarr elems) k = some x := by
        rw [hkj]
        show (if isIndexKey (natToString j) then elems.get? (parseNat (natToString j))
          else none) = some x
        rw [if_pos (isIndexKey_natToString j), parseNat_natToString]
        exact hje
      have hgc : getChild (buildHashTree (.jarr elems)) k = some (buildHashTree x) := by
        show (childrenOf (buildHashTree (.jarr elems))).lookup k = some (buildHashTree x)
        rw [hch, hkj]
        have hl := indexPairs_lookup (buildHashTreeList elems) 0 j hjb
        rw [Nat.zero_add] at hl
        rw [hl, buildHashTreeList_eq_map, getq_map, hje]
        rfl
      obtain ⟨c2, hstep, hstab⟩ := child_steps_establish (.jarr elems) k x (jvSizeList elems)
        hget (jvSizeList_mem elems x hmem) (hQ x hmem) (wfValueList_mem elems hwfl x hmem)
      exact ⟨c2, fun _ => ⟨buildHashTree x, hgc, hstep, hstab⟩⟩
    · exact ⟨emptyEngineTree, fun hm => absurd hm hk⟩
  have henum : ∀ k ∈ enumValueKeys (.jarr elems),
      k ∈ (childrenOf (buildHashTree (.jarr elems))).map (fun kv => kv.1) := by
    intro k hk
    have hk2 : k ∈ (List.range elems.length).map natToString := hk
    obtain ⟨j, hjr, hkj⟩ := List.mem_map.mp hk2
    have hj : j < elems.length := List.mem_range.mp hjr
    rw [hch]
    have hn := indexPairs_key_mem (buildHashTreeList elems) 0 j (by rw [hlen]; exact hj)
    rw [Nat.zero_add] at hn
    rw [← hkj]
    exact hn
  exact build_fixed_structural (.jarr elems) rfl (jvSizeList elems) rfl hnodupK hkin hsteps henum

theorem build_fixed_obj (fields : List (String × JValue))
    (hR : ∀ kv ∈ fields, wfValue kv.2 = true → buildStabilizes kv.2)
    (hwf : wfValue (.jobj fields) = true) : buildStabilizes (.jobj fields) := by
  have hwf2 : (keysNodupB fields && !(fields.any (fun kv => kv.1 == "__hash")) &&
      wfValueFields fields) = true := hwf
  simp only [Bool.and_eq_true] at hwf2
  obtain ⟨⟨hnodB, _⟩, hwff⟩ := hwf2
  have hfieldsNodup : (fields.map (fun kv => kv.1)).Nodup := keysNodupB_nodup fields hnodB
  by_cases hty : hasTruthyTypeField fields = true
  · have hleafy : (!(isObjLike (JValue.jobj fields)) || valueTruthyType (.jobj fields)) = true := by
      show (!(true) || hasTruthyTypeField fields) = true
      rw [hty]
      rfl
    exact ⟨buildHashTree (.jobj fields), leafy_fixed_pair (.jobj fields) hleafy⟩
  · have htyF : hasTruthyTypeField fields = false := by
      cases h : hasTruthyTypeField fields
      · rfl
      · exact absurd h hty
    have hch : childrenOf (buildHashTree (.jobj fields)) =
        sortByKeyLex (buildHashTreeFields fields) := by
      rw [buildHashTree, if_neg (by rw [htyF]; exact Bool.false_ne_true)]
      rfl
    have hsortPerm : (sortByKeyLex (buildHashTreeFields fields)).Perm
        (buildHashTreeFields fields) := List.perm_insertionSort _ _
    have hkeysPerm : ((sortByKeyLex (buildHashTreeFields fields)).map (fun kv => kv.1)).Perm
        (fields.map (fun kv => kv.1)) := by
      have h1 := hsortPerm.map (fun kv => kv.1)
      rw [buildHashTreeFields_keys] at h1
      exact h1
    have hnodupK : ((childrenOf (buildHashTree (.jobj fields))).map (fun kv => kv.1)).Nodup := by
      rw [hch]
      exact hkeysPerm.nodup_iff.mpr hfieldsNodup
    have hkin : ∀ k ∈ (childrenOf (buildHashTree (.jobj fields))).map (fun kv => kv.1),
        keyInValue (.jobj fields) k = true := by
      intro k hk
      rw [hch] at hk
      have hkf : k ∈ fields.map (fun kv => kv.1) := hkeysPerm.mem_iff.mp hk
      obtain ⟨kv, hkv, hk1⟩ := List.mem_map.mp hkf
      have hany : fields.any (fun kv => kv.1 == k) = true :=
        List.any_eq_true.mpr ⟨kv, hkv, by rw [hk1]; exact beq_self_eq_true _⟩
      show (fields.any (fun kv => kv.1 == k) || objProtoNames.any (fun p => p == k)) = true
      rw [hany]
      rfl
    have hsteps : ∀ k, ∃ c2,
        k ∈ (childrenOf (buildHashTree (.jobj fields))).map (fun kv => kv.1) →
        ∃ c, getChild (buildHashTree (.jobj fields)) k = some c ∧
          childBuildStep (.jobj fields) k c c2 (jvSizeFields fields) ∧
          childStable (.jobj fields) k c2 (jvSizeFields fields) := by
      intro k
      by_cases hk : k ∈ (childrenOf (buildHashTree (.jobj fields))).map (fun kv => kv.1)
      · have hk2 := hk
        rw [hch] at hk2
        obtain ⟨kv, hkvmem, hk1⟩ := List.mem_map.mp hk2
        have hkvbf : kv ∈ buildHashTreeFields fields := hsortPerm.mem_iff.mp hkvmem
        obtain ⟨xv, hxf, hxb⟩ := buildFields_mem_inv fields kv hkvbf
        rw [hk1] at hxf
        have hget : jGet (.jobj fields) k = some xv :=
          lookup_eq_of_mem_nodup fields k xv hxf hfieldsNodup
        have hgc : getChild (buildHashTree (.jobj fields)) k = some kv.2 := by
          show (childrenOf (buildHashTree (.jobj fields))).lookup k = some kv.2
          rw [hch]
          refine lookup_eq_of_mem_nodup _ k kv.2 ?_ (hkeysPerm.nodup_iff.mpr hfieldsNodup)
          have hkv2 : (k, kv.2) = kv := by
            rw [← hk1]
          rw [hkv2]
          exact hkvmem
        obtain ⟨c2, hstep, hstab⟩ := child_steps_establish (.jobj fields) k xv
          (jvSizeFields fields) hget (jvSizeFields_mem fields k xv hxf) (hR (k, xv) hxf)
          (wfValueFields_mem fields hwff k xv hxf)
        refine ⟨c2, fun _ => ⟨buildHashTree xv, ?_, hstep, hstab⟩⟩
        rw [hgc, hxb]
      · exact ⟨emptyEngineTree, fun hm => absurd hm hk⟩
    have henum : ∀ k ∈ enumValueKeys (.jobj fields),
        k ∈ (childrenOf (buildHashTree (.jobj fields))).map (fun kv => kv.1) := by
      intro k hk
      have hk2 : k ∈ (jsOrderPairs fields).map (fun kv => kv.1) := hk
      have hkf : k ∈ fields.map (fun kv => kv.1) :=
        ((jsOrderPairs_perm fields).map (fun kv => kv.1)).mem_iff.mp hk2
      rw [hch]
      exact hkeysPerm.mem_iff.mpr hkf
    exact build_fixed_structural (.jobj fields) rfl (jvSizeFields fields) rfl
      hnodupK hkin hsteps henum

theorem build_fixed : ∀ v : JValue, wfValue v = true → buildStabilizes v := by
  refine jvalInd (fun x => wfValue x = true → buildStabilizes x)
    (fun l => ∀ x ∈ l, wfValue x = true → buildStabilizes x)
    (fun fl => ∀ kv ∈ fl, wfValue kv.2 = true → buildStabilizes kv.2)
    (fun _ => ⟨buildHashTree .jnull, leafy_fixed_pair .jnull rfl⟩)
    (fun b _ => ⟨buildHashTree (.jbool b), leafy_fixed_pair (.jbool b) rfl⟩)
    (fun n _ => ⟨buildHashTree (.jnum n), leafy_fixed_pair (.jnum n) rfl⟩)
    (fun s _ => ⟨buildHashTree (.jstr s), leafy_fixed_pair (.jstr s) rfl⟩)
    build_fixed_arr
    build_fixed_obj
    (fun x hx => (List.not_mem_nil x hx).elim)
    (fun x xs hPx hQxs y hy => ?_)
    (fun kv hkv => (List.not_mem_nil kv hkv).elim)
    (fun k x xs hPx hRxs kv hkv => ?_)
  · rcases List.mem_cons.mp hy with h | h
    · subst h
      exact hPx
    · exact hQxs y h
  · rcases List.mem_cons.mp hkv with h | h
    · subst h
      exact hPx
    · exact hRxs kv h

/-- C4, amended.  After initialize(v) (but not from arbitrary states, see the
counterexample), calling update(v) twice emits zero notifications on the
second call and leaves the tree — in particular the root digest — exactly as
it was after the first call; the first call also emits nothing, though it may
rewrite structural digests to the update combination format. -/
theorem c4_idempotent_after_init (v : JValue) (hwf : wfValue v = true) :
    ∃ t1 n1 n2, detectChanges (initHashTree v) v = .ok ⟨t1, [], n1⟩ ∧
      detectChanges t1 v = .ok ⟨t1, [], n2⟩ := by
  obtain ⟨t1, hfirst, hfix⟩ := build_fixed v hwf
  obtain ⟨n1, h1⟩ := hfirst (jvSize v + 1) "" (by omega)
  obtain ⟨n2, h2⟩ := hfix (jvSize v + 1) "" (by omega)
  exact ⟨t1, n1, n2, h1, h2⟩

/-- C4, witness: a nested snapshot with an array child stabilizes after
initialize plus one update, the second update returning the same tree with no
events. -/
theorem c4_idempotent_after_init_witness :
    wfValue (JValue.jobj [("x", .jnum 1), ("a", .jarr [.jnum 1])]) = true ∧
    ∃ t1 n1 n2,
      detectChanges (initHashTree (JValue.jobj [("x", .jnum 1), ("a", .jarr [.jnum 1])]))
        (JValue.jobj [("x", .jnum 1), ("a", .jarr [.jnum 1])]) = .ok ⟨t1, [], n1⟩ ∧
      detectChanges t1 (JValue.jobj [("x", .jnum 1), ("a", .jarr [.jnum 1])]) =
        .ok ⟨t1, [], n2⟩ :=
  ⟨by decide, c4_idempotent_after_init (JValue.jobj [("x", .jnum 1), ("a", .jarr [.jnum 1])])
    (by decide)⟩
